import Mathlib

/-!
Verification of the ShazamAPI audio fingerprinting engine.

This file gives a shallow embedding of the two core subsystems:
the binary signature codec (`ShazamAPI/signature_format.py`) and the
signature generator driver loop with its peak recognition stage
(`ShazamAPI/algorithm.py`), together with theorems about them.

Conventions of the embedding:
- Python byte strings are `List Nat` whose elements are < 256.
- Python arbitrary precision integers are `Int` (or `Nat` where the
  source value is a count); ctypes `c_uint32` fields are reduced
  `% 2 ^ 32` exactly where the source stores into such a field.
- Fallible Python code (statements that can raise) is modelled in
  `Except String`, the string being the exception message.
- The floating point spectra produced by the FFT stage are abstracted
  as rational-valued frames; the control-flow claims proved below hold
  for every possible value of those frames.
-/

-- Rational arithmetic is sealed in the library; opening it up lets concrete
-- signature computations (which compare rational spectra) evaluate by `decide`.
attribute [local semireducible] Rat.inv Rat.mul Rat.add Rat.sub Rat.ofScientific

namespace ShazamAPI

/-- Decidable equality of `Except` values, used to evaluate the codec on
concrete inputs inside proofs. -/
instance {ε α : Type} [DecidableEq ε] [DecidableEq α] : DecidableEq (Except ε α) := fun x y =>
  match x, y with
  | .ok a, .ok b =>
    match decEq a b with
    | isTrue h => isTrue (h ▸ rfl)
    | isFalse h => isFalse fun c => h (Except.ok.inj c)
  | .error a, .error b =>
    match decEq a b with
    | isTrue h => isTrue (h ▸ rfl)
    | isFalse h => isFalse fun c => h (Except.error.inj c)
  | .ok _, .error _ => isFalse fun c => Except.noConfusion c
  | .error _, .ok _ => isFalse fun c => Except.noConfusion c

/-- Little-endian byte list of length `n` holding `x % 2 ^ (8 * n)`;
models the byte layout produced by `int.to_bytes(n, 'little')`. -/
def toLE : Nat → Nat → List Nat
  | 0, _ => []
  | n + 1, x => x % 256 :: toLE n (x / 256)

/-- Value of a little-endian byte list; models `int.from_bytes(b, 'little')`. -/
def fromLE : List Nat → Nat
  | [] => 0
  | b :: bs => b + 256 * fromLE bs

/-- Reflected CRC-32 polynomial 0xEDB88320 used by zlib and `binascii.crc32`. -/
def CRC_POLY : Nat := 0xEDB88320

/-- One bit of the reflected CRC-32 update. -/
def crcStep (r : Nat) : Nat := if r % 2 = 1 then (r / 2) ^^^ CRC_POLY else r / 2

/-- Fold one byte into the running CRC-32 state. -/
def crcByte (r b : Nat) : Nat := crcStep^[8] (r ^^^ b)

/-- Running CRC-32 state after a byte list. -/
def crcFold (r : Nat) (l : List Nat) : Nat := List.foldl crcByte r l

/-- CRC-32 checksum with the standard init and final inversion used by
`binascii.crc32` in `signature_format.py`. -/
def crc32 (l : List Nat) : Nat := crcFold 0xFFFFFFFF l ^^^ 0xFFFFFFFF

/-- Frequency bands of `signature_format.FrequencyBand`. -/
inductive FrequencyBand
  | band_0_250
  | band_250_520
  | band_520_1450
  | band_1450_3500
  | band_3500_5500
deriving DecidableEq

/-- Integer tag of each band, as in the `IntEnum`. -/
def FrequencyBand.intVal : FrequencyBand → Int
  | .band_0_250 => -1
  | .band_250_520 => 0
  | .band_520_1450 => 1
  | .band_1450_3500 => 2
  | .band_3500_5500 => 3

/-- Partial inverse of `FrequencyBand.intVal`; models the `FrequencyBand(x)`
constructor which raises `ValueError` on anything else. -/
def FrequencyBand.fromIntVal (i : Int) : Option FrequencyBand :=
  if i = -1 then some .band_0_250
  else if i = 0 then some .band_250_520
  else if i = 1 then some .band_520_1450
  else if i = 2 then some .band_1450_3500
  else if i = 3 then some .band_3500_5500
  else none

/-- Record of `signature_format.FrequencyPeak`. -/
structure FrequencyPeak where
  fft_pass_number : Int
  peak_magnitude : Int
  corrected_peak_frequency_bin : Int
  sample_rate_hz : Int
deriving DecidableEq

/-- The `frequency_band_to_sound_peaks` dictionary: since the key type is a
closed five-member enum, the dict is one optional entry per band (`none`
models an absent key). -/
structure BandMap where
  band_0_250 : Option (List FrequencyPeak)
  band_250_520 : Option (List FrequencyPeak)
  band_520_1450 : Option (List FrequencyPeak)
  band_1450_3500 : Option (List FrequencyPeak)
  band_3500_5500 : Option (List FrequencyPeak)
deriving DecidableEq

/-- The empty dictionary. -/
def BandMap.empty : BandMap := ⟨none, none, none, none, none⟩

/-- Dictionary lookup. -/
def BandMap.get (bm : BandMap) : FrequencyBand → Option (List FrequencyPeak)
  | .band_0_250 => bm.band_0_250
  | .band_250_520 => bm.band_250_520
  | .band_520_1450 => bm.band_520_1450
  | .band_1450_3500 => bm.band_1450_3500
  | .band_3500_5500 => bm.band_3500_5500

/-- Dictionary store (insert or overwrite). -/
def BandMap.set (bm : BandMap) : FrequencyBand → List FrequencyPeak → BandMap
  | .band_0_250, l => { bm with band_0_250 := some l }
  | .band_250_520, l => { bm with band_250_520 := some l }
  | .band_520_1450, l => { bm with band_520_1450 := some l }
  | .band_1450_3500, l => { bm with band_1450_3500 := some l }
  | .band_3500_5500, l => { bm with band_3500_5500 := some l }

/-- All five bands in ascending tag order. -/
def allBands : List FrequencyBand :=
  [.band_0_250, .band_250_520, .band_520_1450, .band_1450_3500, .band_3500_5500]

/-- Entries of the dictionary in ascending band order, as produced by
`sorted(self.frequency_band_to_sound_peaks.items())`. -/
def BandMap.toList (bm : BandMap) : List (FrequencyBand × List FrequencyPeak) :=
  allBands.filterMap fun b => (bm.get b).map fun l => (b, l)

/-- Record of `signature_format.DecodedMessage`. -/
structure DecodedMessage where
  sample_rate_hz : Int
  number_samples : Int
  frequency_band_to_sound_peaks : BandMap
deriving DecidableEq

def HEADER_MAGIC1 : Nat := 0xCAFE2580
def HEADER_MAGIC2 : Nat := 0x94119C00
def HEADER_MAGIC3 : Nat := (15 <<< 19) + 0x40000

/-- The `SHIFTED_SAMPLE_RATE_TO_ID` mapping; `none` models a `KeyError`. -/
def SHIFTED_SAMPLE_RATE_TO_ID (r : Int) : Option Nat :=
  if r = 8000 then some (1 <<< 27)
  else if r = 11025 then some (2 <<< 27)
  else if r = 16000 then some (3 <<< 27)
  else if r = 32000 then some (4 <<< 27)
  else if r = 44100 then some (5 <<< 27)
  else if r = 48000 then some (6 <<< 27)
  else none

/-- The `SHIFTED_SAMPLE_RATE_FROM_ID` mapping; `none` models a `KeyError`. -/
def SHIFTED_SAMPLE_RATE_FROM_ID (i : Nat) : Option Int :=
  if i = 1 <<< 27 then some 8000
  else if i = 2 <<< 27 then some 11025
  else if i = 3 <<< 27 then some 16000
  else if i = 4 <<< 27 then some 32000
  else if i = 5 <<< 27 then some 44100
  else if i = 6 <<< 27 then some 48000
  else none

/-- Exact value of `sample_rate_hz * 0.24` for each of the six supported
rates (for those rates the IEEE double product is this exact integer). -/
def dividedRate (r : Int) : Int := r * 6 / 25

/-- Models `int.to_bytes(n, 'little')`, which raises `OverflowError` on a
negative or too-large argument. -/
def toBytesChecked (n : Nat) (x : Int) : Except String (List Nat) :=
  if x < 0 then .error "cannot convert negative int to unsigned"
  else if (2 : Int) ^ (8 * n) ≤ x then .error "int too big to convert"
  else .ok (toLE n x.toNat)

/-- Packed peak-stream encoder for one band, translated from the peak loop
of `DecodedMessage.encode_to_binary` (signature_format.py lines 239-252).
`prev` is the running `fft_pass_number` variable. -/
def encodePeaks (prev : Int) : List FrequencyPeak → Except String (List Nat)
  | [] => .ok []
  | p :: ps =>
    if p.fft_pass_number < prev then
      .error "frequency_peak.fft_pass_number < fft_pass_number"
    else if 255 ≤ p.fft_pass_number - prev then do
      let absB ← toBytesChecked 4 p.fft_pass_number
      let magB ← toBytesChecked 2 p.peak_magnitude
      let binB ← toBytesChecked 2 p.corrected_peak_frequency_bin
      let rest ← encodePeaks p.fft_pass_number ps
      .ok (255 :: absB ++ 0 :: magB ++ binB ++ rest)
    else do
      let magB ← toBytesChecked 2 p.peak_magnitude
      let binB ← toBytesChecked 2 p.corrected_peak_frequency_bin
      let rest ← encodePeaks p.fft_pass_number ps
      .ok ((p.fft_pass_number - prev).toNat :: magB ++ binB ++ rest)

/-- Number of zero padding bytes after a peak stream of `n` bytes
(Python `-n % 4`). -/
def padLen (n : Nat) : Nat := (4 - n % 4) % 4

/-- The 32-bit TLV tag of a band (`0x60030040 + int(band)`). -/
def bandTag (b : FrequencyBand) : Nat := (0x60030040 + b.intVal).toNat

/-- One TLV entry of the message body: tag, stream length, stream, padding. -/
def bandChunk (b : FrequencyBand) (peaks : List FrequencyPeak) :
    Except String (List Nat) := do
  let stream ← encodePeaks 0 peaks
  let lenB ← toBytesChecked 4 (stream.length : Int)
  .ok (toLE 4 (bandTag b) ++ lenB ++ stream ++ List.replicate (padLen stream.length) 0)

/-- The concatenated TLV entries for all present bands, in ascending band
order. -/
def encodeContents (bm : BandMap) : Except String (List Nat) := do
  let chunks ← bm.toList.mapM fun bp => bandChunk bp.1 bp.2
  .ok chunks.flatten

/-- Bytes 8..47 of the header: size_minus_header, magic2, void1, rate id,
void2, number_samples_plus_divided_sample_rate, magic3. -/
def headerTail (smh rateId nspdsr : Nat) : List Nat :=
  toLE 4 smh ++ toLE 4 HEADER_MAGIC2 ++ List.replicate 12 0 ++ toLE 4 rateId ++
    List.replicate 8 0 ++ toLE 4 nspdsr ++ toLE 4 HEADER_MAGIC3

/-- Translation of `DecodedMessage.encode_to_binary`. The two `c_uint32`
header stores mask their value `% 2 ^ 32`; the explicit `to_bytes` write of
the preamble size raises on overflow instead, exactly as in the source. -/
def DecodedMessage.encode_to_binary (m : DecodedMessage) :
    Except String (List Nat) := do
  let rateId ← match SHIFTED_SAMPLE_RATE_TO_ID m.sample_rate_hz with
    | none => Except.error "KeyError in SHIFTED_SAMPLE_RATE_TO_ID"
    | some i => Except.ok i
  let nspdsr : Nat := ((m.number_samples + dividedRate m.sample_rate_hz) % (2 : Int) ^ 32).toNat
  let contents ← encodeContents m.frequency_band_to_sound_peaks
  let preSizeB ← toBytesChecked 4 ((contents.length : Int) + 8)
  let smh : Nat := (contents.length + 8) % 2 ^ 32
  let tail := headerTail smh rateId nspdsr ++ toLE 4 0x40000000 ++ preSizeB ++ contents
  .ok (toLE 4 HEADER_MAGIC1 ++ toLE 4 (crc32 tail) ++ tail)

/-- Read `n` bytes at offset `off` as a little-endian integer (short reads
yield the value of the available bytes, like `int.from_bytes(buf.read(n))`). -/
def rdLE (l : List Nat) (off n : Nat) : Nat := fromLE ((l.drop off).take n)

/-- Inner decoding loop for one packed peak stream, translated from
`decode_from_binary` lines 169-186. The fuel argument only forces
termination; any fuel above the stream length gives the loop's behaviour. -/
def decodePeaksLoop (rate : Int) : Nat → List Nat → Int → List FrequencyPeak
  | 0, _, _ => []
  | _ + 1, [], _ => []
  | f + 1, b :: rest, fpn =>
    if b = 255 then decodePeaksLoop rate f (rest.drop 4) (fromLE (rest.take 4) : Nat)
    else
      let fpn2 := fpn + (b : Int)
      let mag : Int := fromLE (rest.take 2)
      let bin : Int := fromLE ((rest.drop 2).take 2)
      ⟨fpn2, mag, bin, rate⟩ :: decodePeaksLoop rate f ((rest.drop 2).drop 2) fpn2

/-- TLV decoding loop of `decode_from_binary` lines 153-186. -/
def decodeTLVLoop (rate : Int) : Nat → List Nat → BandMap → Except String BandMap
  | 0, _, _ => .error "out of fuel"
  | _ + 1, [], bm => .ok bm
  | f + 1, b0 :: rest0, bm =>
    let l := b0 :: rest0
    let hdr := l.take 8
    let bandId := fromLE (hdr.take 4)
    let size := fromLE (hdr.drop 4)
    let body := l.drop 8
    match FrequencyBand.fromIntVal ((bandId : Int) - 0x60030040) with
    | none => .error "is not a valid FrequencyBand"
    | some band =>
      let peaks := decodePeaksLoop rate (size + 1) (body.take size) 0
      decodeTLVLoop rate f ((body.drop size).drop (padLen size)) (bm.set band peaks)

/-- Translation of `DecodedMessage.decode_from_binary`. -/
def DecodedMessage.decode_from_binary (data : List Nat) :
    Except String DecodedMessage :=
  if rdLE data 0 4 ≠ HEADER_MAGIC1 ∨ rdLE data 12 4 ≠ HEADER_MAGIC2 then
    .error "Wrong magic string specified in header"
  else if (rdLE data 8 4 : Int) ≠ (data.length : Int) - 48 then
    .error "Wrong size specified in header"
  else if crc32 (data.drop 8) ≠ rdLE data 4 4 then
    .error "Wrong checksum specified in header"
  else
    match SHIFTED_SAMPLE_RATE_FROM_ID (rdLE data 28 4) with
    | none => .error "KeyError in SHIFTED_SAMPLE_RATE_FROM_ID"
    | some rate =>
      let ns : Int := (rdLE data 40 4 : Int) - dividedRate rate
      if rdLE data 48 4 ≠ 0x40000000 ∨ (rdLE data 52 4 : Int) ≠ (data.length : Int) - 48 then
        .error "Unexpected first chunk format"
      else do
        let bm ← decodeTLVLoop rate (data.length + 1) (data.drop 56) BandMap.empty
        .ok ⟨rate, ns, bm⟩

/-- Truncation toward zero of a rational, modelling Python `int(x)`. -/
def ratTrunc (q : ℚ) : Int := q.num.tdiv q.den

/-- Abstraction of the spectral data visible to one invocation of
`do_peak_recognition`: the floating point magnitudes are arbitrary
rationals. `p46 k` stands for `fft_minus_46[k]`, `s49 k` for
`fft_minus_49[k]` (the spread frame at offset -49), `spreadAt t k` for
`spread_ffts_output[(position + t) % 256][k]`, and `logm k` for the
log-domain magnitude `log(max(1/64, fft_minus_46[k])) * 1477.3 + 6144`. -/
structure PassView where
  p46 : Nat → ℚ
  s49 : Nat → ℚ
  spreadAt : Int → Nat → ℚ
  logm : Nat → ℚ

/-- Frequency neighbourhood offsets `(*range(-10, -3, 3), -3, 1, *range(2, 9, 3))`. -/
def freqOffsets : List Int := [-10, -7, -4, -3, 1, 2, 5, 8]

/-- Time neighbourhood offsets `(-53, -45, *range(165, 201, 7), *range(214, 250, 7))`. -/
def timeOffsets : List Int :=
  [-53, -45, 165, 172, 179, 186, 193, 200, 214, 221, 228, 235, 242, 249]

/-- One bin of `do_peak_recognition` (algorithm.py lines 189-257): `none`
when no peak is stored for this bin (a gate fails or the frequency is out
of range), `some (band, peak)` for a stored peak, and an error for the
fatal `peak_variation_1` guard. `fftNumber` is
`spread_ffts_output.num_written - 46`. -/
def processBin (v : PassView) (fftNumber : Int) (k : Nat) :
    Except String (Option (FrequencyBand × FrequencyPeak)) :=
  if 1/64 ≤ v.p46 k ∧ v.s49 (k - 1) ≤ v.p46 k then
    let maxF := freqOffsets.foldl (fun acc d => max (v.s49 ((k : Int) + d).toNat) acc) 0
    if maxF < v.p46 k then
      let maxT := timeOffsets.foldl (fun acc t => max (v.spreadAt t (k - 1)) acc) maxF
      if maxT < v.p46 k then
        let peakMag := v.logm k
        let magBefore := v.logm (k - 1)
        let magAfter := v.logm (k + 1)
        let v1 := peakMag * 2 - magBefore - magAfter
        let v2 := (magAfter - magBefore) * 32 / v1
        let correctedBin := (k : ℚ) * 64 + v2
        if v1 ≤ 0 then .error "peak_variation_1 is not positive"
        else
          let freq := correctedBin * (16000 / 2 / 1024 / 64 : ℚ)
          if freq < 250 then .ok none
          else if freq < 520 then
            .ok (some (.band_250_520, ⟨fftNumber, ratTrunc peakMag, ratTrunc correctedBin, 16000⟩))
          else if freq < 1450 then
            .ok (some (.band_520_1450, ⟨fftNumber, ratTrunc peakMag, ratTrunc correctedBin, 16000⟩))
          else if freq < 3500 then
            .ok (some (.band_1450_3500, ⟨fftNumber, ratTrunc peakMag, ratTrunc correctedBin, 16000⟩))
          else if freq ≤ 5500 then
            .ok (some (.band_3500_5500, ⟨fftNumber, ratTrunc peakMag, ratTrunc correctedBin, 16000⟩))
          else .ok none
      else .ok none
    else .ok none
  else .ok none

/-- The interpolation denominator `peak_variation_1` of one bin
(algorithm.py line 224): `peak_magnitude * 2 - before - after` in the
log-magnitude domain. -/
def peakVariation1 (v : PassView) (k : Nat) : ℚ :=
  v.logm k * 2 - v.logm (k - 1) - v.logm (k + 1)

/-- The interpolated `corrected_peak_frequency_bin` of one bin before
truncation (algorithm.py lines 225-227): `bin_position * 64 +
(after - before) * 32 / peak_variation_1`. -/
def correctedBinQ (v : PassView) (k : Nat) : ℚ :=
  (k : ℚ) * 64 + (v.logm (k + 1) - v.logm (k - 1)) * 32 / peakVariation1 v k

/-- `frequency_hz` of a corrected bin (algorithm.py line 233):
`corrected_peak_frequency_bin * (16000 / 2 / 1024 / 64)`. -/
def frequencyHz (q : ℚ) : ℚ := q * (16000 / 2 / 1024 / 64)

/-- Store one recognized peak, creating the band entry if absent
(algorithm.py lines 247-257). -/
def appendPeak (bm : BandMap) (b : FrequencyBand) (p : FrequencyPeak) : BandMap :=
  bm.set b ((bm.get b).getD [] ++ [p])

/-- The bin loop of `do_peak_recognition` over bins 10..1014. On the fatal
error the loop stops, but the peaks already appended stay stored, matching
the dictionary mutations that happened before the exception was raised. -/
def recognizePass (v : PassView) (fftNumber : Int) (bm : BandMap) :
    BandMap × Option String :=
  (List.range' 10 1005).foldl
    (fun acc k =>
      match acc.2 with
      | some _ => acc
      | none =>
        match processBin v fftNumber k with
        | .error e => (acc.1, some e)
        | .ok none => acc
        | .ok (some (band, pk)) => (appendPeak acc.1 band pk, none))
    (bm, none)

/-- State of a `SignatureGenerator`. Only the length of
`input_pending_processing` matters to the driver loop; the sample values
feed the FFT, whose floating point output is abstracted by an oracle
passed to the loop (indexed by `passCount`, the total number of spreading
passes ever run). -/
structure GenState where
  pendingLen : Nat
  samples_processed : Nat
  passCount : Nat
  numWritten : Nat
  next_signature : DecodedMessage
deriving DecidableEq

/-- Generator state built by `SignatureGenerator.__init__`. -/
def initGen : GenState := ⟨0, 0, 0, 0, ⟨16000, 0, BandMap.empty⟩⟩

/-- Total number of stored peaks, as summed by the driver loop guard. -/
def totalPeaks (bm : BandMap) : Nat :=
  (allBands.map fun b => ((bm.get b).getD []).length).sum

/-- Models `process_input` on one 128-sample chunk: count the samples, run
the FFT and spreading (incrementing `num_written`), and run peak
recognition once at least 46 spread frames exist. -/
def processChunk (om : Nat → PassView) (s : GenState) : GenState × Option String :=
  let ns2 := s.next_signature.number_samples + 128
  let nw := s.numWritten + 1
  if 46 ≤ nw then
    let res := recognizePass (om s.passCount) ((nw : Int) - 46)
      s.next_signature.frequency_band_to_sound_peaks
    ({ s with
        next_signature := ⟨s.next_signature.sample_rate_hz, ns2, res.1⟩,
        numWritten := nw,
        passCount := s.passCount + 1 }, res.2)
  else
    ({ s with
        next_signature :=
          ⟨s.next_signature.sample_rate_hz, ns2, s.next_signature.frequency_band_to_sound_peaks⟩,
        numWritten := nw,
        passCount := s.passCount + 1 }, none)

/-- Loop guard of `get_next_signature` (algorithm.py lines 91-99), with the
default budgets `MAX_TIME_SECONDS = 3.1` and `MAX_PEAKS = 255`. For integer
sample counts the IEEE double comparison
`number_samples / sample_rate_hz < 3.1` agrees with the rational
comparison against 31/10, so the guard is stated over ℚ. -/
def loopGuard (s : GenState) : Prop :=
  128 ≤ s.pendingLen - s.samples_processed ∧
    ((s.next_signature.number_samples : ℚ) / (s.next_signature.sample_rate_hz : ℚ) < 31/10 ∨
      totalPeaks s.next_signature.frequency_band_to_sound_peaks < 255)

/-- The rational comparison of the loop guard, restated by cross
multiplication over the integers (so that the guard can be evaluated on
concrete states: rational division does not reduce definitionally). -/
def loopGuard_div_iff (ns r : Int) :
    ((0 < r ∧ 10 * ns < 31 * r) ∨ (r < 0 ∧ 31 * r < 10 * ns) ∨ r = 0) ↔
      (ns : ℚ) / (r : ℚ) < 31 / 10 := by
  rcases lt_trichotomy r 0 with h | h | h
  · have hq : (r : ℚ) < 0 := by exact_mod_cast h
    rw [div_lt_iff_of_neg hq, show (31 : ℚ) / 10 * r = 31 * r / 10 by ring,
      div_lt_iff (by norm_num)]
    constructor
    · rintro (⟨h0, _⟩ | ⟨_, h2⟩ | h0)
      · exact absurd h0 (by omega)
      · have h2q : ((31 * r : Int) : ℚ) < ((10 * ns : Int) : ℚ) := by exact_mod_cast h2
        push_cast at h2q
        exact_mod_cast (by linarith : (31 * r : ℚ) < ns * 10)
      · exact absurd h0 (by omega)
    · intro hlt
      refine .inr (.inl ⟨h, ?_⟩)
      have : (31 * r : Int) < ns * 10 := by exact_mod_cast hlt
      omega
  · subst h
    simp
  · have hq : (0 : ℚ) < (r : ℚ) := by exact_mod_cast h
    rw [div_lt_div_iff hq (by norm_num)]
    constructor
    · rintro (⟨_, h2⟩ | ⟨h0, _⟩ | h0)
      · have h2q : ((10 * ns : Int) : ℚ) < ((31 * r : Int) : ℚ) := by exact_mod_cast h2
        push_cast at h2q
        exact_mod_cast (by linarith : (ns * 10 : ℚ) < 31 * r)
      · exact absurd h0 (by omega)
      · exact absurd h0 (by omega)
    · intro hlt
      refine .inl ⟨h, ?_⟩
      have : (ns * 10 : Int) < 31 * r := by exact_mod_cast hlt
      omega

instance (s : GenState) : Decidable (loopGuard s) :=
  decidable_of_iff
    (128 ≤ s.pendingLen - s.samples_processed ∧
      (((0 < s.next_signature.sample_rate_hz ∧
            10 * s.next_signature.number_samples < 31 * s.next_signature.sample_rate_hz) ∨
          (s.next_signature.sample_rate_hz < 0 ∧
            31 * s.next_signature.sample_rate_hz < 10 * s.next_signature.number_samples) ∨
          s.next_signature.sample_rate_hz = 0) ∨
        totalPeaks s.next_signature.frequency_band_to_sound_peaks < 255))
    (by
      unfold loopGuard
      exact and_congr_right fun _ => or_congr_left
        (loopGuard_div_iff s.next_signature.number_samples s.next_signature.sample_rate_hz))

/-- The while loop of `get_next_signature`, with explicit fuel. Each
iteration consumes 128 samples, so any fuel at least the number of
unconsumed samples is beyond what the loop can use. A recognition error
aborts the loop (the exception propagates). -/
def consumeLoop (om : Nat → PassView) : Nat → GenState → GenState × Option String
  | 0, s => (s, none)
  | fuel + 1, s =>
    if loopGuard s then
      match processChunk om s with
      | (s2, none) =>
        consumeLoop om fuel { s2 with samples_processed := s2.samples_processed + 128 }
      | (s2, some e) => (s2, some e)
    else (s, none)

/-- Translation of `get_next_signature`: `none` when fewer than 128
unconsumed samples remain; otherwise drive the consume loop, return the
accumulated signature and reset the accumulator and the ring buffers. On
an error the exception propagates before the reset, leaving the partially
accumulated state in place. -/
def get_next_signature (om : Nat → PassView) (s : GenState) :
    (Option DecodedMessage × GenState) × Option String :=
  if s.pendingLen - s.samples_processed < 128 then ((none, s), none)
  else
    match consumeLoop om (s.pendingLen - s.samples_processed) s with
    | (s2, none) =>
      ((some s2.next_signature,
        { s2 with
           next_signature := ⟨16000, 0, BandMap.empty⟩,
           numWritten := 0 }), none)
    | (s2, some e) => ((none, s2), some e)

/-- Models `feed_input` (only the number of fed samples is relevant). -/
def feed_input (n : Nat) (s : GenState) : GenState :=
  { s with pendingLen := s.pendingLen + n }

/-- One caller-level operation on a generator. -/
inductive GenOp
  | feed (n : Nat)
  | getNext

/-- Run a sequence of caller operations, collecting every signature the
generator returns, in order; stops if an exception propagates out. -/
def runOps (om : Nat → PassView) : List GenOp → GenState → GenState × List DecodedMessage
  | [], s => (s, [])
  | .feed n :: ops, s => runOps om ops (feed_input n s)
  | .getNext :: ops, s =>
    match get_next_signature om s with
    | ((msg, s2), none) =>
      let rest := runOps om ops s2
      (rest.1, match msg with | some m => m :: rest.2 | none => rest.2)
    | ((_, s2), some _) => (s2, [])

/-- Sortedness of one band: adjacent peaks have non-decreasing
`fft_pass_number`. -/
def sortedPeaks (l : List FrequencyPeak) : Prop :=
  List.Chain' (fun p q => p.fft_pass_number ≤ q.fft_pass_number) l

/-- A `Decidable` instance for `List.Chain` that evaluates (the library
instance is built by tactics and does not reduce). -/
def chainDec {α : Type} (R : α → α → Prop) (dr : (a b : α) → Decidable (R a b)) :
    (a : α) → (l : List α) → Decidable (List.Chain R a l)
  | _, [] => isTrue List.Chain.nil
  | a, b :: l =>
    match dr a b, chainDec R dr b l with
    | isTrue h1, isTrue h2 => isTrue (List.Chain.cons h1 h2)
    | isFalse h1, _ => isFalse fun hc => h1 (List.chain_cons.mp hc).1
    | _, isFalse h2 => isFalse fun hc => h2 (List.chain_cons.mp hc).2

instance (l : List FrequencyPeak) : Decidable (sortedPeaks l) :=
  match l with
  | [] => isTrue trivial
  | a :: t =>
    chainDec (fun p q : FrequencyPeak => p.fft_pass_number ≤ q.fft_pass_number)
      (fun p q => inferInstanceAs (Decidable (p.fft_pass_number ≤ q.fft_pass_number))) a t

/-- Range constraints on one peak under which the encoder cannot overflow:
non-negative pass number below 2^32, magnitude and bin fitting an unsigned
16-bit integer. -/
def peakBounds (p : FrequencyPeak) : Prop :=
  0 ≤ p.fft_pass_number ∧ p.fft_pass_number < 2 ^ 32 ∧
    0 ≤ p.peak_magnitude ∧ p.peak_magnitude < 2 ^ 16 ∧
    0 ≤ p.corrected_peak_frequency_bin ∧ p.corrected_peak_frequency_bin < 2 ^ 16

instance (p : FrequencyPeak) : Decidable (peakBounds p) :=
  inferInstanceAs (Decidable (_ ∧ _ ∧ _ ∧ _ ∧ _ ∧ _))

/-- In-range peak whose sample rate also matches the message's (the decoder
reconstructs every peak with the message rate). -/
def peakInRange (rate : Int) (p : FrequencyPeak) : Prop :=
  peakBounds p ∧ p.sample_rate_hz = rate

instance (rate : Int) (p : FrequencyPeak) : Decidable (peakInRange rate p) :=
  inferInstanceAs (Decidable (peakBounds p ∧ _))

/-- Sorted in-range peaks of one band. -/
def validPeaks (rate : Int) (l : List FrequencyPeak) : Prop :=
  sortedPeaks l ∧ ∀ p ∈ l, peakInRange rate p

instance (rate : Int) (l : List FrequencyPeak) : Decidable (validPeaks rate l) :=
  inferInstanceAs (Decidable (sortedPeaks l ∧ ∀ p ∈ l, peakInRange rate p))

/-- Validity of one optional dictionary entry. -/
def validEntry (rate : Int) : Option (List FrequencyPeak) → Prop
  | none => True
  | some l => validPeaks rate l

instance (rate : Int) (o : Option (List FrequencyPeak)) : Decidable (validEntry rate o) :=
  match o with
  | none => isTrue trivial
  | some _ => inferInstanceAs (Decidable (validPeaks _ _))

/-- Hypotheses under which the binary round trip is exact: a supported
sample rate, a sample count whose header field does not wrap the 32-bit
store, a total peak count small enough that every TLV length field fits,
and per-band sorted in-range peaks. -/
def validMessage (m : DecodedMessage) : Prop :=
  (SHIFTED_SAMPLE_RATE_TO_ID m.sample_rate_hz).isSome = true ∧
    0 ≤ m.number_samples ∧
    m.number_samples + dividedRate m.sample_rate_hz < 2 ^ 32 ∧
    totalPeaks m.frequency_band_to_sound_peaks < 2 ^ 27 ∧
    ∀ b ∈ allBands, validEntry m.sample_rate_hz (m.frequency_band_to_sound_peaks.get b)

instance (m : DecodedMessage) : Decidable (validMessage m) :=
  inferInstanceAs (Decidable (_ ∧ _ ∧ _ ∧ _ ∧ ∀ b ∈ allBands, validEntry _ _))

/-- The bytes of one TLV entry whose already-encoded peak stream is
`stream`: tag, length, stream, zero padding. -/
def bandChunkBytes (b : FrequencyBand) (stream : List Nat) : List Nat :=
  toLE 4 (bandTag b) ++ toLE 4 stream.length ++ stream ++
    List.replicate (padLen stream.length) 0

/-- Invariant of the accumulating band dictionary: every stored band is
sorted, and every stored pass number is at most `N`. -/
def bandInv (N : Int) (bm : BandMap) : Prop :=
  ∀ b l, bm.get b = some l → sortedPeaks l ∧ ∀ p ∈ l, p.fft_pass_number ≤ N

/-- Bytes 8..end of an encoded message with header field `ns`
(the masked `number_samples_plus_divided_sample_rate`), rate id `rateId`
and TLV contents `contents`. -/
def encTail (ns rateId : Nat) (contents : List Nat) : List Nat :=
  headerTail ((contents.length + 8) % 2 ^ 32) rateId ns ++ toLE 4 0x40000000 ++
    toLE 4 ((contents.length + 8) % 2 ^ 32) ++ contents

/-- The full byte string produced by a successful `encode_to_binary`. -/
def encBytes (ns rateId : Nat) (contents : List Nat) : List Nat :=
  toLE 4 HEADER_MAGIC1 ++ toLE 4 (crc32 (encTail ns rateId contents)) ++
    encTail ns rateId contents

/-- A concrete spectral frame: bin 64 carries an isolated peak of
amplitude 1 (log-domain magnitude 6144) over a silent background. Used to
run the generator on explicit input. -/
def vOne : PassView :=
  ⟨fun k => if k = 64 then 1 else 0, fun _ => 0, fun _ _ => 0,
    fun k => if k = 64 then 6144 else 0⟩

/-! ### Byte-level lemmas -/

theorem toLE_length (n x : Nat) : (toLE n x).length = n := by
  induction n generalizing x with
  | zero => rfl
  | succ n ih => simp [toLE, ih]

theorem toLE_lt (n x : Nat) : ∀ b ∈ toLE n x, b < 256 := by
  induction n generalizing x with
  | zero => intro b hb; cases hb
  | succ n ih =>
    intro b hb
    simp only [toLE, List.mem_cons] at hb
    rcases hb with h | h
    · subst h; exact Nat.mod_lt _ (by norm_num)
    · exact ih _ _ h

theorem fromLE_toLE (n x : Nat) : fromLE (toLE n x) = x % 2 ^ (8 * n) := by
  induction n generalizing x with
  | zero => simp [toLE, fromLE, Nat.mod_one]
  | succ n ih =>
    rw [show 8 * (n + 1) = 8 + 8 * n by ring, pow_add]
    simp only [toLE, fromLE, ih]
    rw [show (2 : Nat) ^ 8 = 256 by norm_num, Nat.mod_mul]

theorem fromLE_toLE_of_lt {n x : Nat} (h : x < 2 ^ (8 * n)) : fromLE (toLE n x) = x := by
  rw [fromLE_toLE, Nat.mod_eq_of_lt h]

theorem fromLE_lt (l : List Nat) (hb : ∀ b ∈ l, b < 256) :
    fromLE l < 2 ^ (8 * l.length) := by
  induction l with
  | nil => simp [fromLE]
  | cons b t ih =>
    have hbt : b < 256 := hb b (List.mem_cons_self _ _)
    have ht := ih fun c hc => hb c (List.mem_cons_of_mem _ hc)
    simp only [fromLE, List.length_cons]
    rw [show 8 * (t.length + 1) = 8 + 8 * t.length by ring, pow_add,
      show (2 : Nat) ^ 8 = 256 by norm_num]
    calc b + 256 * fromLE t < 256 + 256 * fromLE t := by omega
    _ = 256 * (fromLE t + 1) := by ring
    _ ≤ 256 * 2 ^ (8 * t.length) := by
        exact Nat.mul_le_mul_left _ (by omega)

theorem fromLE_set_ne (F : List Nat) (j v : Nat) (hv : v < 256)
    (hb : ∀ b ∈ F, b < 256) (hj : j < F.length) (hne : v ≠ F.getD j 0) :
    fromLE (F.set j v) ≠ fromLE F := by
  induction F generalizing j with
  | nil => cases hj
  | cons b t ih =>
    cases j with
    | zero =>
      simp only [List.set, fromLE]
      have hvne : v ≠ b := hne
      omega
    | succ j =>
      have ht := ih j (fun c hc => hb c (List.mem_cons_of_mem _ hc))
        (by simpa using hj) (by simpa using hne)
      simp only [List.set, fromLE]
      omega

/-! ### CRC-32 lemmas: the update is xor-linear and maps nonzero states to
nonzero states, hence a single byte change always changes the checksum. -/

theorem crcStep_lt {r : Nat} (h : r < 2 ^ 32) : crcStep r < 2 ^ 32 := by
  unfold crcStep
  split
  · exact Nat.xor_lt_two_pow (by omega) (by norm_num [CRC_POLY])
  · omega

theorem xor_right_comm (a b c : Nat) : a ^^^ b ^^^ c = a ^^^ c ^^^ b := by
  rw [Nat.xor_assoc, Nat.xor_comm b c, ← Nat.xor_assoc]

theorem xor_xor_cancel (a b c : Nat) : (a ^^^ c) ^^^ (b ^^^ c) = a ^^^ b := by
  apply Nat.eq_of_testBit_eq; intro i
  simp only [Nat.testBit_xor]
  cases a.testBit i <;> cases b.testBit i <;> cases c.testBit i <;> rfl

theorem xor_cancel_left (r b1 b2 : Nat) : (r ^^^ b1) ^^^ (r ^^^ b2) = b1 ^^^ b2 := by
  apply Nat.eq_of_testBit_eq; intro i
  simp only [Nat.testBit_xor]
  cases r.testBit i <;> cases b1.testBit i <;> cases b2.testBit i <;> rfl

theorem crcStep_xor (x y : Nat) : crcStep (x ^^^ y) = crcStep x ^^^ crcStep y := by
  have hdiv : (x ^^^ y) / 2 = x / 2 ^^^ y / 2 := by
    apply Nat.eq_of_testBit_eq; intro i
    simp [Nat.testBit_div_two, Nat.testBit_xor]
  have hbit : (x ^^^ y).testBit 0 = ((x.testBit 0) ^^ (y.testBit 0)) := Nat.testBit_xor x y 0
  simp only [Nat.testBit_zero] at hbit
  have h01 : ¬(0 : Nat) = 1 := by omega
  rcases Nat.mod_two_eq_zero_or_one x with hx | hx <;>
    rcases Nat.mod_two_eq_zero_or_one y with hy | hy
  · have hpar : (x ^^^ y) % 2 = 0 := by
      simp only [hx, hy] at hbit
      rcases Nat.mod_two_eq_zero_or_one (x ^^^ y) with h | h
      · exact h
      · simp [h] at hbit
    simp only [crcStep, hpar, hx, hy]
    simp only [if_neg h01]
    exact hdiv
  · have hpar : (x ^^^ y) % 2 = 1 := by
      simp only [hx, hy] at hbit
      rcases Nat.mod_two_eq_zero_or_one (x ^^^ y) with h | h
      · simp [h] at hbit
      · exact h
    simp only [crcStep, hpar, hx, hy]
    simp only [if_true, if_neg h01]
    rw [hdiv, Nat.xor_assoc]
  · have hpar : (x ^^^ y) % 2 = 1 := by
      simp only [hx, hy] at hbit
      rcases Nat.mod_two_eq_zero_or_one (x ^^^ y) with h | h
      · simp [h] at hbit
      · exact h
    simp only [crcStep, hpar, hx, hy]
    simp only [if_true, if_neg h01]
    rw [hdiv, xor_right_comm]
  · have hpar : (x ^^^ y) % 2 = 0 := by
      simp only [hx, hy] at hbit
      rcases Nat.mod_two_eq_zero_or_one (x ^^^ y) with h | h
      · exact h
      · simp [h] at hbit
    simp only [crcStep, hpar, hx, hy]
    simp only [if_true, if_neg h01]
    rw [hdiv, xor_xor_cancel]

theorem crcStep_ne_zero {z : Nat} (h0 : z ≠ 0) (hlt : z < 2 ^ 32) :
    crcStep z ≠ 0 := by
  unfold crcStep
  split
  · intro h
    have := Nat.xor_eq_zero.mp h
    have : z / 2 = CRC_POLY := this
    unfold CRC_POLY at this
    omega
  · intro h
    omega

theorem crcIter_xor (n x y : Nat) :
    crcStep^[n] (x ^^^ y) = crcStep^[n] x ^^^ crcStep^[n] y := by
  induction n generalizing x y with
  | zero => rfl
  | succ n ih =>
    rw [Function.iterate_succ_apply, Function.iterate_succ_apply,
      Function.iterate_succ_apply, crcStep_xor, ih]

theorem crcIter_lt (n : Nat) {x : Nat} (h : x < 2 ^ 32) : crcStep^[n] x < 2 ^ 32 := by
  induction n generalizing x with
  | zero => exact h
  | succ n ih => rw [Function.iterate_succ_apply]; exact ih (crcStep_lt h)

theorem crcIter_ne_zero (n : Nat) {x : Nat} (h0 : x ≠ 0) (hlt : x < 2 ^ 32) :
    crcStep^[n] x ≠ 0 := by
  induction n generalizing x with
  | zero => exact h0
  | succ n ih =>
    rw [Function.iterate_succ_apply]
    exact ih (crcStep_ne_zero h0 hlt) (crcStep_lt hlt)

theorem crcByte_xor (r1 r2 b1 b2 : Nat) :
    crcByte r1 b1 ^^^ crcByte r2 b2 = crcStep^[8] ((r1 ^^^ b1) ^^^ (r2 ^^^ b2)) := by
  rw [crcByte, crcByte, ← crcIter_xor]

theorem crcByte_xor_same (r1 r2 b : Nat) :
    crcByte r1 b ^^^ crcByte r2 b = crcStep^[8] (r1 ^^^ r2) := by
  rw [crcByte_xor]
  congr 1
  exact xor_xor_cancel r1 r2 b

theorem crcByte_xor_same_state (r b1 b2 : Nat) :
    crcByte r b1 ^^^ crcByte r b2 = crcStep^[8] (b1 ^^^ b2) := by
  rw [crcByte_xor]
  congr 1
  exact xor_cancel_left r b1 b2

theorem crcByte_lt {r b : Nat} (hr : r < 2 ^ 32) (hb : b < 256) :
    crcByte r b < 2 ^ 32 :=
  crcIter_lt 8 (Nat.xor_lt_two_pow hr (by omega))

theorem crcFold_cons (r b : Nat) (t : List Nat) :
    crcFold r (b :: t) = crcFold (crcByte r b) t := rfl

theorem crcFold_xor (l : List Nat) (r1 r2 : Nat) :
    crcFold r1 l ^^^ crcFold r2 l = crcStep^[8 * l.length] (r1 ^^^ r2) := by
  induction l generalizing r1 r2 with
  | nil => rfl
  | cons b t ih =>
    rw [crcFold_cons, crcFold_cons, ih, crcByte_xor_same, ← Function.iterate_add_apply,
      List.length_cons, show 8 * (t.length + 1) = 8 * t.length + 8 by ring]

theorem crcFold_lt {l : List Nat} {r : Nat} (hr : r < 2 ^ 32)
    (hb : ∀ b ∈ l, b < 256) : crcFold r l < 2 ^ 32 := by
  induction l generalizing r with
  | nil => exact hr
  | cons b t ih =>
    rw [crcFold_cons]
    exact ih (crcByte_lt hr (hb b (List.mem_cons_self _ _)))
      fun c hc => hb c (List.mem_cons_of_mem _ hc)

theorem crc32_lt {l : List Nat} (hb : ∀ b ∈ l, b < 256) : crc32 l < 2 ^ 32 := by
  unfold crc32
  exact Nat.xor_lt_two_pow (crcFold_lt (by norm_num) hb) (by norm_num)

theorem crcFold_set_ne (l : List Nat) (i v r : Nat) (hr : r < 2 ^ 32)
    (hb : ∀ b ∈ l, b < 256) (hv : v < 256) (hi : i < l.length)
    (hne : v ≠ l.getD i 0) : crcFold r (l.set i v) ≠ crcFold r l := by
  induction l generalizing i r with
  | nil => cases hi
  | cons b t ih =>
    have hbb : b < 256 := hb b (List.mem_cons_self _ _)
    have hbt : ∀ c ∈ t, c < 256 := fun c hc => hb c (List.mem_cons_of_mem _ hc)
    cases i with
    | zero =>
      have hvb : v ≠ b := hne
      simp only [List.set]
      rw [crcFold_cons, crcFold_cons]
      intro h
      have hx : crcFold (crcByte r v) t ^^^ crcFold (crcByte r b) t = 0 := by
        rw [h, Nat.xor_self]
      rw [crcFold_xor, crcByte_xor_same_state] at hx
      have hvb2 : v ^^^ b ≠ 0 := fun hc => hvb (Nat.xor_eq_zero.mp hc)
      have hvb3 : v ^^^ b < 2 ^ 32 := Nat.xor_lt_two_pow (by omega) (by omega)
      have h8 : crcStep^[8] (v ^^^ b) ≠ 0 := crcIter_ne_zero 8 hvb2 hvb3
      have h8lt : crcStep^[8] (v ^^^ b) < 2 ^ 32 := crcIter_lt 8 hvb3
      exact crcIter_ne_zero _ h8 h8lt hx
    | succ i =>
      simp only [List.set]
      rw [crcFold_cons, crcFold_cons]
      exact ih i (crcByte r b) (crcByte_lt hr hbb) hbt
        (by simpa using hi) (by simpa using hne)

theorem crc32_set_ne (l : List Nat) (i v : Nat)
    (hb : ∀ b ∈ l, b < 256) (hv : v < 256) (hi : i < l.length)
    (hne : v ≠ l.getD i 0) : crc32 (l.set i v) ≠ crc32 l := by
  unfold crc32
  intro h
  apply crcFold_set_ne l i v 0xFFFFFFFF (by norm_num) hb hv hi hne
  have := congrArg (· ^^^ 0xFFFFFFFF) h
  simpa [Nat.xor_assoc] using this

/-! ### Encoder lemmas and the peak-stream round trip -/

theorem except_bind_ok {α β : Type} (a : α) (f : α → Except String β) :
    (Except.ok a >>= f) = f a := rfl

theorem except_bind_error {α β : Type} (e : String) (f : α → Except String β) :
    ((Except.error e : Except String α) >>= f) = .error e := rfl

theorem toBytesChecked_ok {n : Nat} {x : Int} (h0 : 0 ≤ x)
    (hlt : x < (2 : Int) ^ (8 * n)) :
    toBytesChecked n x = .ok (toLE n x.toNat) := by
  unfold toBytesChecked
  rw [if_neg (by omega), if_neg (not_le.mpr hlt)]

theorem chain_le_of_sorted (l : List FrequencyPeak) (prev : Int)
    (hs : sortedPeaks l) (h0 : ∀ p ∈ l, prev ≤ p.fft_pass_number) :
    List.Chain (fun a b : Int => a ≤ b) prev (l.map fun p => p.fft_pass_number) := by
  cases l with
  | nil => exact List.Chain.nil
  | cons p t =>
    simp only [List.map_cons]
    refine List.Chain.cons (h0 p (List.mem_cons_self _ _)) ?_
    rw [List.chain_map]
    exact hs

theorem toNat_cast_eq {x : Int} (h : 0 ≤ x) : ((x.toNat : Int)) = x := Int.toNat_of_nonneg h

/-- The full behaviour of the peak-stream encoder on sorted in-range input:
it succeeds, produces at most 10 bytes per peak, produces real bytes, and
the decoding loop inverts it exactly. -/
theorem peaks_roundtrip (rate : Int) :
    ∀ (l : List FrequencyPeak) (prev : Int), 0 ≤ prev →
    (∀ p ∈ l, peakBounds p) →
    List.Chain (fun a b : Int => a ≤ b) prev (l.map fun p => p.fft_pass_number) →
    ∃ bs, encodePeaks prev l = .ok bs ∧ bs.length ≤ 10 * l.length ∧
      (∀ b ∈ bs, b < 256) ∧
      ((∀ p ∈ l, p.sample_rate_hz = rate) →
        ∀ fuel, bs.length < fuel → decodePeaksLoop rate fuel bs prev = l) := by
  intro l
  induction l with
  | nil =>
    intro prev _ _ _
    refine ⟨[], rfl, by simp, by simp, ?_⟩
    intro _ fuel _
    cases fuel <;> rfl
  | cons p t ih =>
    intro prev hprev hbounds hchain
    cases hchain with
    | cons hhead htail =>
      obtain ⟨hf0, hf32, hm0, hm16, hb0, hb16⟩ :=
        hbounds p (List.mem_cons_self _ _)
      have hbt : ∀ q ∈ t, peakBounds q :=
        fun q hq => hbounds q (List.mem_cons_of_mem _ hq)
      obtain ⟨bs, hbs, hlen, hbyte, hdec⟩ := ih p.fft_pass_number hf0 hbt htail
      have hmagB : toBytesChecked 2 p.peak_magnitude =
          .ok (toLE 2 p.peak_magnitude.toNat) :=
        toBytesChecked_ok hm0 (by norm_num at hm16 ⊢; omega)
      have hbinB : toBytesChecked 2 p.corrected_peak_frequency_bin =
          .ok (toLE 2 p.corrected_peak_frequency_bin.toNat) :=
        toBytesChecked_ok hb0 (by norm_num at hb16 ⊢; omega)
      have hnotlt : ¬ p.fft_pass_number < prev := not_lt.mpr hhead
      by_cases hbig : 255 ≤ p.fft_pass_number - prev
      · -- escape path
        have habsB : toBytesChecked 4 p.fft_pass_number =
            .ok (toLE 4 p.fft_pass_number.toNat) :=
          toBytesChecked_ok hf0 (by norm_num at hf32 ⊢; omega)
        have henc : encodePeaks prev (p :: t) =
            .ok (255 :: (toLE 4 p.fft_pass_number.toNat ++
              (0 :: (toLE 2 p.peak_magnitude.toNat ++
              (toLE 2 p.corrected_peak_frequency_bin.toNat ++ bs))))) := by
          simp only [encodePeaks, if_neg hnotlt, if_pos hbig, habsB, hmagB, hbinB,
            hbs, except_bind_ok, List.append_assoc, List.cons_append]
        refine ⟨_, henc, ?_, ?_, ?_⟩
        · simp only [List.length_cons, List.length_append, toLE_length]
          omega
        · intro c hc
          simp only [List.mem_cons, List.mem_append] at hc
          rcases hc with rfl | h | rfl | h | h | h
          · omega
          · exact toLE_lt _ _ _ h
          · omega
          · exact toLE_lt _ _ _ h
          · exact toLE_lt _ _ _ h
          · exact hbyte _ h
        · intro hr fuel hfuel
          have hrate : p.sample_rate_hz = rate := hr p (List.mem_cons_self _ _)
          simp only [List.length_cons, List.length_append, toLE_length,
            List.length_cons] at hfuel
          match fuel, hfuel with
          | f + 1, hfuel =>
            simp only [decodePeaksLoop, if_pos rfl]
            rw [List.take_left' (toLE_length 4 _), List.drop_left' (toLE_length 4 _)]
            rw [fromLE_toLE_of_lt (by
              have := hf32; have := hf0
              omega)]
            match f, hfuel with
            | f2 + 1, hfuel =>
              simp only [decodePeaksLoop, if_neg (by omega : ¬(0 : Nat) = 255)]
              rw [List.take_left' (toLE_length 2 _), List.drop_left' (toLE_length 2 _),
                List.take_left' (toLE_length 2 _), List.drop_left' (toLE_length 2 _)]
              rw [fromLE_toLE_of_lt (by norm_num at hm16 ⊢; omega),
                fromLE_toLE_of_lt (by norm_num at hb16 ⊢; omega)]
              have hpk : (⟨(p.fft_pass_number.toNat : Int) + ((0 : Nat) : Int),
                  (p.peak_magnitude.toNat : Int),
                  (p.corrected_peak_frequency_bin.toNat : Int), rate⟩ : FrequencyPeak) = p := by
                have e1 := toNat_cast_eq hf0
                have e2 := toNat_cast_eq hm0
                have e3 := toNat_cast_eq hb0
                cases p
                simp only [FrequencyPeak.mk.injEq] at *
                refine ⟨by omega, by omega, by omega, hrate.symm⟩
              rw [hpk]
              have hrec := hdec (fun q hq => hr q (List.mem_cons_of_mem _ hq)) f2 (by omega)
              rw [show (p.fft_pass_number.toNat : Int) + ((0 : Nat) : Int) =
                p.fft_pass_number by
                  have := toNat_cast_eq hf0; push_cast; omega]
              rw [hrec]
              exact if_pos trivial
      · -- small-delta path
        have hd0 : 0 ≤ p.fft_pass_number - prev := by omega
        have hd255 : (p.fft_pass_number - prev).toNat < 255 := by omega
        have henc : encodePeaks prev (p :: t) =
            .ok ((p.fft_pass_number - prev).toNat ::
              (toLE 2 p.peak_magnitude.toNat ++
              (toLE 2 p.corrected_peak_frequency_bin.toNat ++ bs))) := by
          simp only [encodePeaks, if_neg hnotlt, if_neg hbig, hmagB, hbinB,
            hbs, except_bind_ok, List.append_assoc, List.cons_append]
        refine ⟨_, henc, ?_, ?_, ?_⟩
        · simp only [List.length_cons, List.length_append, toLE_length]
          omega
        · intro c hc
          simp only [List.mem_cons, List.mem_append] at hc
          rcases hc with rfl | h | h | h
          · omega
          · exact toLE_lt _ _ _ h
          · exact toLE_lt _ _ _ h
          · exact hbyte _ h
        · intro hr fuel hfuel
          have hrate : p.sample_rate_hz = rate := hr p (List.mem_cons_self _ _)
          simp only [List.length_cons, List.length_append, toLE_length] at hfuel
          match fuel, hfuel with
          | f + 1, hfuel =>
            simp only [decodePeaksLoop, if_neg (by omega : ¬(p.fft_pass_number - prev).toNat = 255)]
            rw [List.take_left' (toLE_length 2 _), List.drop_left' (toLE_length 2 _),
              List.take_left' (toLE_length 2 _), List.drop_left' (toLE_length 2 _)]
            rw [fromLE_toLE_of_lt (by norm_num at hm16 ⊢; omega),
              fromLE_toLE_of_lt (by norm_num at hb16 ⊢; omega)]
            have hfpn : prev + (((p.fft_pass_number - prev).toNat : Nat) : Int) =
                p.fft_pass_number := by
              rw [toNat_cast_eq hd0]; omega
            have hpk : (⟨prev + (((p.fft_pass_number - prev).toNat : Nat) : Int),
                (p.peak_magnitude.toNat : Int),
                (p.corrected_peak_frequency_bin.toNat : Int), rate⟩ : FrequencyPeak) = p := by
              have e2 := toNat_cast_eq hm0
              have e3 := toNat_cast_eq hb0
              cases p
              simp only [FrequencyPeak.mk.injEq] at *
              refine ⟨by omega, by omega, by omega, hrate.symm⟩
            rw [hpk, hfpn, hdec (fun q hq => hr q (List.mem_cons_of_mem _ hq)) f (by omega)]

/-! ### TLV-level lemmas -/

theorem bandTag_lt (b : FrequencyBand) : bandTag b < 2 ^ 32 := by
  cases b <;> decide

theorem fromIntVal_bandTag (b : FrequencyBand) :
    FrequencyBand.fromIntVal ((bandTag b : Int) - 0x60030040) = some b := by
  cases b <;> decide

theorem padLen_le (n : Nat) : padLen n ≤ 3 := by
  unfold padLen; omega

theorem bandChunk_ok {peaks : List FrequencyPeak} {stream : List Nat}
    (b : FrequencyBand) (hs : encodePeaks 0 peaks = .ok stream)
    (hlen : stream.length < 2 ^ 32) :
    bandChunk b peaks = .ok (bandChunkBytes b stream) := by
  have hlenB : toBytesChecked 4 (stream.length : Int) =
      .ok (toLE 4 stream.length) := by
    rw [toBytesChecked_ok (by positivity) (by push_cast; norm_num at hlen ⊢; omega)]
    simp
  simp only [bandChunk, bandChunkBytes, hs, hlenB, except_bind_ok]

theorem decodeTLVLoop_ne_nil (rate : Int) (f : Nat) (l : List Nat) (bm : BandMap)
    (hne : l ≠ []) :
    decodeTLVLoop rate (f + 1) l bm =
      match FrequencyBand.fromIntVal ((fromLE ((l.take 8).take 4) : Int) - 0x60030040) with
      | none => .error "is not a valid FrequencyBand"
      | some band =>
        decodeTLVLoop rate f
          (((l.drop 8).drop (fromLE ((l.take 8).drop 4))).drop
            (padLen (fromLE ((l.take 8).drop 4))))
          (bm.set band
            (decodePeaksLoop rate (fromLE ((l.take 8).drop 4) + 1)
              ((l.drop 8).take (fromLE ((l.take 8).drop 4))) 0)) := by
  cases l with
  | nil => exact absurd rfl hne
  | cons b0 rest0 => rfl

theorem decodeTLV_step (rate : Int) (f : Nat) (b : FrequencyBand)
    (stream rest : List Nat) (bm : BandMap) (hlen : stream.length < 2 ^ 32) :
    decodeTLVLoop rate (f + 1) (bandChunkBytes b stream ++ rest) bm =
      decodeTLVLoop rate f rest
        (bm.set b (decodePeaksLoop rate (stream.length + 1) stream 0)) := by
  have habs : bandChunkBytes b stream ++ rest =
      (toLE 4 (bandTag b) ++ toLE 4 stream.length) ++
        (stream ++ (List.replicate (padLen stream.length) 0 ++ rest)) := by
    simp [bandChunkBytes, List.append_assoc]
  have hlen8 : (toLE 4 (bandTag b) ++ toLE 4 stream.length).length = 8 := by
    simp [toLE_length]
  have hne : bandChunkBytes b stream ++ rest ≠ [] := by
    rw [habs]
    apply List.ne_nil_of_length_pos
    simp only [List.length_append, hlen8]
    omega
  rw [decodeTLVLoop_ne_nil rate f _ bm hne]
  rw [habs, List.take_left' hlen8, List.drop_left' hlen8,
    List.take_left' (toLE_length 4 _), List.drop_left' (toLE_length 4 _),
    fromLE_toLE_of_lt (bandTag_lt b), fromLE_toLE_of_lt hlen,
    fromIntVal_bandTag b, List.take_left, List.drop_left,
    List.drop_left' (List.length_replicate _ _)]

theorem mapM_cons_ok {α : Type} (f : α → Except String (List Nat)) (x : α)
    (l : List α) {y : List Nat} {ys : List (List Nat)}
    (hx : f x = .ok y) (hl : l.mapM f = .ok ys) :
    (x :: l).mapM f = .ok (y :: ys) := by
  rw [List.mapM_cons, hx, except_bind_ok, hl, except_bind_ok]
  rfl

/-- Behaviour of the whole TLV section on a valid band list: encoding all
entries succeeds, the bytes are bounded and real, and the TLV decode loop
recovers exactly the encoded dictionary entries. -/
theorem contents_roundtrip (rate : Int) :
    ∀ (entries : List (FrequencyBand × List FrequencyPeak)),
    (∀ e ∈ entries, validPeaks rate e.2) →
    (∀ e ∈ entries, e.2.length < 2 ^ 27) →
    ∃ cs : List (List Nat),
      (entries.mapM fun bp => bandChunk bp.1 bp.2) = .ok cs ∧
      cs.flatten.length ≤ 11 * entries.length +
        10 * (entries.map fun e => e.2.length).sum ∧
      (∀ x ∈ cs.flatten, x < 256) ∧
      ∀ fuel bm, entries.length < fuel →
        decodeTLVLoop rate fuel cs.flatten bm =
          .ok (entries.foldl (fun acc e => acc.set e.1 e.2) bm) := by
  intro entries
  induction entries with
  | nil =>
    intro _ _
    refine ⟨[], by rw [List.mapM_nil]; rfl, by simp, by simp, ?_⟩
    intro fuel bm hfuel
    match fuel, hfuel with
    | f + 1, _ => rfl
  | cons e t ih =>
    intro hvalid hcount
    obtain ⟨hsorted, hrange⟩ := hvalid e (List.mem_cons_self _ _)
    have hchain : List.Chain (fun a b : Int => a ≤ b) 0
        (e.2.map fun p => p.fft_pass_number) :=
      chain_le_of_sorted e.2 0 hsorted fun p hp => (hrange p hp).1.1
    obtain ⟨stream, hstream, hslen, hsbyte, _⟩ :=
      peaks_roundtrip rate e.2 0 le_rfl (fun p hp => (hrange p hp).1) hchain
    have hs32 : stream.length < 2 ^ 32 := by
      have := hcount e (List.mem_cons_self _ _)
      norm_num at this ⊢
      omega
    have hchunk := bandChunk_ok e.1 hstream hs32
    obtain ⟨cs, hcs, hcslen, hcsbyte, hcsdec⟩ :=
      ih (fun x hx => hvalid x (List.mem_cons_of_mem _ hx))
        (fun x hx => hcount x (List.mem_cons_of_mem _ hx))
    refine ⟨bandChunkBytes e.1 stream :: cs, ?_, ?_, ?_, ?_⟩
    · exact mapM_cons_ok _ _ _ hchunk hcs
    · simp only [List.flatten_cons, List.length_append, List.map_cons, List.sum_cons,
        List.length_cons, bandChunkBytes, toLE_length, List.length_replicate]
      have hp := padLen_le stream.length
      omega
    · intro x hx
      simp only [List.flatten_cons, List.mem_append] at hx
      rcases hx with hx | hx
      · simp only [bandChunkBytes, List.mem_append, List.mem_replicate] at hx
        rcases hx with ((hx | hx) | hx) | hx
        · exact toLE_lt _ _ _ hx
        · exact toLE_lt _ _ _ hx
        · exact hsbyte _ hx
        · omega
      · exact hcsbyte _ hx
    · intro fuel bm hfuel
      match fuel, hfuel with
      | f + 1, hfuel =>
        simp only [List.flatten_cons]
        rw [decodeTLV_step rate f e.1 stream cs.flatten bm hs32]
        have hpeaks : decodePeaksLoop rate (stream.length + 1) stream 0 = e.2 := by
          obtain ⟨stream2, hstream2, _, _, hdec2⟩ :=
            peaks_roundtrip rate e.2 0 le_rfl (fun p hp => (hrange p hp).1) hchain
          rw [hstream2] at hstream
          cases hstream
          exact hdec2 (fun p hp => (hrange p hp).2) _ (Nat.lt_succ_self _)
        rw [hpeaks]
        rw [hcsdec f (bm.set e.1 e.2) (by simp only [List.length_cons] at hfuel; omega)]
        rfl

/-! ### Encoder failure analysis (used for the sortedness claim) -/

theorem sorted_chain0 {l : List FrequencyPeak}
    (h0 : ∀ p ∈ l, 0 ≤ p.fft_pass_number) :
    sortedPeaks l ↔
      List.Chain (fun a b : Int => a ≤ b) 0 (l.map fun p => p.fft_pass_number) := by
  constructor
  · intro hs; exact chain_le_of_sorted l 0 hs h0
  · intro hc
    cases l with
    | nil => simp [sortedPeaks]
    | cons p t =>
      cases hc with
      | cons hh ht => exact (List.chain_map _).mp ht

theorem encodePeaks_error_of_unsorted :
    ∀ (l : List FrequencyPeak) (prev : Int), 0 ≤ prev →
    (∀ p ∈ l, peakBounds p) →
    ¬ List.Chain (fun a b : Int => a ≤ b) prev (l.map fun p => p.fft_pass_number) →
    encodePeaks prev l =
      .error "frequency_peak.fft_pass_number < fft_pass_number" := by
  intro l
  induction l with
  | nil => intro prev _ _ hc; exact absurd List.Chain.nil hc
  | cons p t ih =>
    intro prev hprev hb hc
    by_cases hlt : p.fft_pass_number < prev
    · simp only [encodePeaks, if_pos hlt]
    · have hnc : ¬ List.Chain (fun a b : Int => a ≤ b) p.fft_pass_number
          (t.map fun p => p.fft_pass_number) := by
        intro h
        exact hc (List.Chain.cons (not_lt.mp hlt) h)
      obtain ⟨hf0, hf32, hm0, hm16, hb0, hb16⟩ := hb p (List.mem_cons_self _ _)
      have htb := ih p.fft_pass_number hf0
        (fun q hq => hb q (List.mem_cons_of_mem _ hq)) hnc
      have hmagB : toBytesChecked 2 p.peak_magnitude =
          .ok (toLE 2 p.peak_magnitude.toNat) :=
        toBytesChecked_ok hm0 (by norm_num at hm16 ⊢; omega)
      have hbinB : toBytesChecked 2 p.corrected_peak_frequency_bin =
          .ok (toLE 2 p.corrected_peak_frequency_bin.toNat) :=
        toBytesChecked_ok hb0 (by norm_num at hb16 ⊢; omega)
      by_cases hbig : 255 ≤ p.fft_pass_number - prev
      · have habsB : toBytesChecked 4 p.fft_pass_number =
            .ok (toLE 4 p.fft_pass_number.toNat) :=
          toBytesChecked_ok hf0 (by norm_num at hf32 ⊢; omega)
        simp only [encodePeaks, if_neg hlt, if_pos hbig, habsB, hmagB, hbinB, htb,
          except_bind_ok, except_bind_error]
      · simp only [encodePeaks, if_neg hlt, if_neg hbig, hmagB, hbinB, htb,
          except_bind_ok, except_bind_error]

theorem mapM_bandChunk_error :
    ∀ (entries : List (FrequencyBand × List FrequencyPeak)),
    (∀ e ∈ entries, ∀ p ∈ e.2, peakBounds p) →
    (∀ e ∈ entries, e.2.length < 2 ^ 27) →
    (∃ e ∈ entries, ¬ sortedPeaks e.2) →
    (entries.mapM fun bp => bandChunk bp.1 bp.2) =
      .error "frequency_peak.fft_pass_number < fft_pass_number" := by
  intro entries
  induction entries with
  | nil =>
    intro _ _ hex
    obtain ⟨e, he, _⟩ := hex
    exact absurd he (List.not_mem_nil e)
  | cons e t ih =>
    intro hb hcnt hex
    by_cases hs : sortedPeaks e.2
    · have hex2 : ∃ x ∈ t, ¬ sortedPeaks x.2 := by
        obtain ⟨x, hx, hns⟩ := hex
        rcases List.mem_cons.mp hx with rfl | hx2
        · exact absurd hs hns
        · exact ⟨x, hx2, hns⟩
      have hb0 : ∀ p ∈ e.2, peakBounds p := hb e (List.mem_cons_self _ _)
      have hchain := (sorted_chain0 fun p hp => (hb0 p hp).1).mp hs
      obtain ⟨stream, hstream, hslen, _, _⟩ :=
        peaks_roundtrip 0 e.2 0 le_rfl hb0 hchain
      have hs32 : stream.length < 2 ^ 32 := by
        have := hcnt e (List.mem_cons_self _ _)
        norm_num at this ⊢
        omega
      have hchunk := bandChunk_ok e.1 hstream hs32
      have htl := ih (fun x hx => hb x (List.mem_cons_of_mem _ hx))
        (fun x hx => hcnt x (List.mem_cons_of_mem _ hx)) hex2
      rw [List.mapM_cons, hchunk, except_bind_ok, htl, except_bind_error]
    · have hestream : encodePeaks 0 e.2 =
          .error "frequency_peak.fft_pass_number < fft_pass_number" := by
        apply encodePeaks_error_of_unsorted e.2 0 le_rfl
          (hb e (List.mem_cons_self _ _))
        intro hch
        exact hs ((sorted_chain0
          fun p hp => (hb e (List.mem_cons_self _ _) p hp).1).mpr hch)
      have hchunk : bandChunk e.1 e.2 =
          .error "frequency_peak.fft_pass_number < fft_pass_number" := by
        simp only [bandChunk, hestream, except_bind_error]
      rw [List.mapM_cons, hchunk, except_bind_error]

theorem mapM_bandChunk_ok :
    ∀ (entries : List (FrequencyBand × List FrequencyPeak)),
    (∀ e ∈ entries, ∀ p ∈ e.2, peakBounds p) →
    (∀ e ∈ entries, e.2.length < 2 ^ 27) →
    (∀ e ∈ entries, sortedPeaks e.2) →
    ∃ cs : List (List Nat),
      (entries.mapM fun bp => bandChunk bp.1 bp.2) = .ok cs ∧
      cs.flatten.length ≤ 11 * entries.length +
        10 * (entries.map fun e => e.2.length).sum := by
  intro entries
  induction entries with
  | nil => intro _ _ _; exact ⟨[], by rw [List.mapM_nil]; rfl, by simp⟩
  | cons e t ih =>
    intro hb hcnt hs
    have hb0 : ∀ p ∈ e.2, peakBounds p := hb e (List.mem_cons_self _ _)
    have hchain := (sorted_chain0 fun p hp => (hb0 p hp).1).mp
      (hs e (List.mem_cons_self _ _))
    obtain ⟨stream, hstream, hslen, _, _⟩ :=
      peaks_roundtrip 0 e.2 0 le_rfl hb0 hchain
    have hs32 : stream.length < 2 ^ 32 := by
      have := hcnt e (List.mem_cons_self _ _)
      norm_num at this ⊢
      omega
    have hchunk := bandChunk_ok e.1 hstream hs32
    obtain ⟨cs, hcs, hcslen⟩ := ih (fun x hx => hb x (List.mem_cons_of_mem _ hx))
      (fun x hx => hcnt x (List.mem_cons_of_mem _ hx))
      (fun x hx => hs x (List.mem_cons_of_mem _ hx))
    refine ⟨bandChunkBytes e.1 stream :: cs, mapM_cons_ok _ _ _ hchunk hcs, ?_⟩
    simp only [List.flatten_cons, List.length_append, List.map_cons, List.sum_cons,
      List.length_cons, bandChunkBytes, toLE_length, List.length_replicate]
    have hp := padLen_le stream.length
    omega

theorem mem_allBands (b : FrequencyBand) : b ∈ allBands := by
  cases b <;> simp [allBands]

theorem get_mem_toList {bm : BandMap} {b : FrequencyBand} {l : List FrequencyPeak}
    (h : bm.get b = some l) : (b, l) ∈ bm.toList := by
  unfold BandMap.toList
  rw [List.mem_filterMap]
  exact ⟨b, mem_allBands b, by rw [h]; rfl⟩

/-! ### Message-level lemmas -/

theorem rate_cases {r : Int} {i : Nat} (h : SHIFTED_SAMPLE_RATE_TO_ID r = some i) :
    SHIFTED_SAMPLE_RATE_FROM_ID i = some r ∧ i < 2 ^ 32 ∧ 0 ≤ dividedRate r := by
  unfold SHIFTED_SAMPLE_RATE_TO_ID at h
  split_ifs at h with h1 h2 h3 h4 h5 h6 <;>
    first
      | (injection h with h; subst h
         first
           | (subst h1; exact ⟨by decide, by decide, by decide⟩)
           | (subst h2; exact ⟨by decide, by decide, by decide⟩)
           | (subst h3; exact ⟨by decide, by decide, by decide⟩)
           | (subst h4; exact ⟨by decide, by decide, by decide⟩)
           | (subst h5; exact ⟨by decide, by decide, by decide⟩)
           | (subst h6; exact ⟨by decide, by decide, by decide⟩))
      | exact Option.noConfusion h

theorem get_set (bm : BandMap) (b b2 : FrequencyBand) (l : List FrequencyPeak) :
    (bm.set b l).get b2 = if b2 = b then some l else bm.get b2 := by
  cases b <;> cases b2 <;> simp [BandMap.set, BandMap.get]

theorem foldl_set_toList (bm : BandMap) :
    bm.toList.foldl (fun acc e => acc.set e.1 e.2) BandMap.empty = bm := by
  obtain ⟨o1, o2, o3, o4, o5⟩ := bm
  rcases o1 <;> rcases o2 <;> rcases o3 <;> rcases o4 <;> rcases o5 <;> rfl

theorem toList_mem {bm : BandMap} {b : FrequencyBand} {l : List FrequencyPeak}
    (h : (b, l) ∈ bm.toList) : bm.get b = some l := by
  unfold BandMap.toList at h
  rw [List.mem_filterMap] at h
  obtain ⟨a, _, ha⟩ := h
  cases hg : bm.get a with
  | none => rw [hg] at ha; exact Option.noConfusion ha
  | some l2 =>
    rw [hg] at ha
    simp only [Option.map_some, Option.map_some', Option.some.injEq, Prod.mk.injEq] at ha
    obtain ⟨rfl, rfl⟩ := ha
    exact hg

theorem toList_sum (bm : BandMap) :
    (bm.toList.map fun e => e.2.length).sum = totalPeaks bm := by
  obtain ⟨o1, o2, o3, o4, o5⟩ := bm
  rcases o1 <;> rcases o2 <;> rcases o3 <;> rcases o4 <;> rcases o5 <;>
    (simp [BandMap.toList, totalPeaks, allBands, BandMap.get] <;> omega)

theorem toList_length_le (bm : BandMap) : bm.toList.length ≤ 5 :=
  le_trans (List.length_filterMap_le _ _) (by rfl)

theorem encBytes_length (ns rid : Nat) (c : List Nat) :
    (encBytes ns rid c).length = 56 + c.length := by
  simp only [encBytes, encTail, headerTail, toLE_length, List.length_append,
    List.length_replicate]
  omega

theorem encTail_bytes_lt (ns rid : Nat) (c : List Nat) (hc : ∀ x ∈ c, x < 256) :
    ∀ x ∈ encTail ns rid c, x < 256 := by
  intro x hx
  simp only [encTail, headerTail, List.append_assoc, List.mem_append,
    List.mem_replicate] at hx
  rcases hx with hx | hx | hx | hx | hx | hx | hx | hx | hx | hx
  · exact toLE_lt _ _ _ hx
  · exact toLE_lt _ _ _ hx
  · omega
  · exact toLE_lt _ _ _ hx
  · omega
  · exact toLE_lt _ _ _ hx
  · exact toLE_lt _ _ _ hx
  · exact toLE_lt _ _ _ hx
  · exact toLE_lt _ _ _ hx
  · exact hc _ hx

theorem encBytes_bytes_lt (ns rid : Nat) (c : List Nat) (hc : ∀ x ∈ c, x < 256) :
    ∀ x ∈ encBytes ns rid c, x < 256 := by
  intro x hx
  simp only [encBytes, List.append_assoc, List.mem_append] at hx
  rcases hx with hx | hx | hx
  · exact toLE_lt _ _ _ hx
  · exact toLE_lt _ _ _ hx
  · exact encTail_bytes_lt ns rid c hc x hx

theorem encBytes_drop8 (ns rid : Nat) (c : List Nat) :
    (encBytes ns rid c).drop 8 = encTail ns rid c := rfl

theorem encBytes_drop56 (ns rid : Nat) (c : List Nat) :
    (encBytes ns rid c).drop 56 = c := rfl

theorem encBytes_rd0 (ns rid : Nat) (c : List Nat) :
    rdLE (encBytes ns rid c) 0 4 = fromLE (toLE 4 HEADER_MAGIC1) := rfl

theorem encBytes_rd4 (ns rid : Nat) (c : List Nat) :
    rdLE (encBytes ns rid c) 4 4 = fromLE (toLE 4 (crc32 (encTail ns rid c))) := rfl

theorem encBytes_rd8 (ns rid : Nat) (c : List Nat) :
    rdLE (encBytes ns rid c) 8 4 = fromLE (toLE 4 ((c.length + 8) % 2 ^ 32)) := rfl

theorem encBytes_rd12 (ns rid : Nat) (c : List Nat) :
    rdLE (encBytes ns rid c) 12 4 = fromLE (toLE 4 HEADER_MAGIC2) := rfl

theorem encBytes_rd28 (ns rid : Nat) (c : List Nat) :
    rdLE (encBytes ns rid c) 28 4 = fromLE (toLE 4 rid) := rfl

theorem encBytes_rd40 (ns rid : Nat) (c : List Nat) :
    rdLE (encBytes ns rid c) 40 4 = fromLE (toLE 4 ns) := rfl

theorem encBytes_rd48 (ns rid : Nat) (c : List Nat) :
    rdLE (encBytes ns rid c) 48 4 = fromLE (toLE 4 0x40000000) := rfl

theorem encBytes_rd52 (ns rid : Nat) (c : List Nat) :
    rdLE (encBytes ns rid c) 52 4 = fromLE (toLE 4 ((c.length + 8) % 2 ^ 32)) := rfl

theorem decode_unfold_ok (data : List Nat) (rate : Int) (bm : BandMap)
    (h1 : rdLE data 0 4 = HEADER_MAGIC1) (h2 : rdLE data 12 4 = HEADER_MAGIC2)
    (h3 : (rdLE data 8 4 : Int) = (data.length : Int) - 48)
    (h4 : crc32 (data.drop 8) = rdLE data 4 4)
    (h5 : SHIFTED_SAMPLE_RATE_FROM_ID (rdLE data 28 4) = some rate)
    (h6 : rdLE data 48 4 = 0x40000000)
    (h7 : (rdLE data 52 4 : Int) = (data.length : Int) - 48)
    (h8 : decodeTLVLoop rate (data.length + 1) (data.drop 56) BandMap.empty = .ok bm) :
    DecodedMessage.decode_from_binary data =
      .ok ⟨rate, (rdLE data 40 4 : Int) - dividedRate rate, bm⟩ := by
  unfold DecodedMessage.decode_from_binary
  rw [if_neg (by push_neg; exact ⟨h1, h2⟩), if_neg (by push_neg; omega),
    if_neg (by rw [h4]; exact fun h => h rfl)]
  simp only [h5]
  rw [if_neg (by push_neg; exact ⟨h6, by omega⟩)]
  rw [h8, except_bind_ok]

theorem encode_ok (m : DecodedMessage) {rid : Nat} {cs : List (List Nat)}
    (hrid : SHIFTED_SAMPLE_RATE_TO_ID m.sample_rate_hz = some rid)
    (hcs : (m.frequency_band_to_sound_peaks.toList.mapM
      fun bp => bandChunk bp.1 bp.2) = .ok cs)
    (hlen : cs.flatten.length + 8 < 2 ^ 32) :
    m.encode_to_binary =
      .ok (encBytes
        ((m.number_samples + dividedRate m.sample_rate_hz) % (2 : Int) ^ 32).toNat
        rid cs.flatten) := by
  have htn : ((cs.flatten.length : Int) + 8).toNat = cs.flatten.length + 8 := by omega
  have hpre : toBytesChecked 4 ((cs.flatten.length : Int) + 8) =
      .ok (toLE 4 (cs.flatten.length + 8)) := by
    rw [toBytesChecked_ok (by positivity) (by exact_mod_cast hlen), htn]
  have hmod : (cs.flatten.length + 8) % 2 ^ 32 = cs.flatten.length + 8 :=
    Nat.mod_eq_of_lt hlen
  simp only [DecodedMessage.encode_to_binary, hrid, encodeContents, hcs, hpre,
    except_bind_ok]
  simp only [encBytes, encTail, hmod]

theorem roundtrip_main (m : DecodedMessage) (hm : validMessage m) :
    ∃ bs, m.encode_to_binary = .ok bs ∧ (∀ x ∈ bs, x < 256) ∧
      DecodedMessage.decode_from_binary bs = .ok m := by
  obtain ⟨hsome, hns0, hns32, htp, hvb⟩ := hm
  obtain ⟨rid, hrid⟩ := Option.isSome_iff_exists.mp hsome
  obtain ⟨hfrom, hrid32, hdiv0⟩ := rate_cases hrid
  have hentries_valid : ∀ e ∈ m.frequency_band_to_sound_peaks.toList,
      validPeaks m.sample_rate_hz e.2 := by
    intro e he
    have hget : m.frequency_band_to_sound_peaks.get e.1 = some e.2 :=
      toList_mem (by cases e; exact he)
    have hv := hvb e.1 (mem_allBands e.1)
    rw [hget] at hv
    exact hv
  have hentries_count : ∀ e ∈ m.frequency_band_to_sound_peaks.toList,
      e.2.length < 2 ^ 27 := by
    intro e he
    have hget : m.frequency_band_to_sound_peaks.get e.1 = some e.2 :=
      toList_mem (by cases e; exact he)
    have hmem : e.2.length ∈ allBands.map
        fun b => ((m.frequency_band_to_sound_peaks.get b).getD []).length := by
      rw [List.mem_map]
      exact ⟨e.1, mem_allBands e.1, by rw [hget]; rfl⟩
    have hle : e.2.length ≤ totalPeaks m.frequency_band_to_sound_peaks :=
      List.single_le_sum (fun x _ => Nat.zero_le x) _ hmem
    omega
  obtain ⟨cs, hcs, hcslen, hcsbyte, hcsdec⟩ :=
    contents_roundtrip m.sample_rate_hz m.frequency_band_to_sound_peaks.toList
      hentries_valid hentries_count
  rw [toList_sum] at hcslen
  have hlistlen := toList_length_le m.frequency_band_to_sound_peaks
  have hlen : cs.flatten.length + 8 < 2 ^ 32 := by
    omega
  have henc := encode_ok m hrid hcs hlen
  have hmod : (cs.flatten.length + 8) % 2 ^ 32 = cs.flatten.length + 8 :=
    Nat.mod_eq_of_lt hlen
  have hns_mod : (m.number_samples + dividedRate m.sample_rate_hz) % (2 : Int) ^ 32 =
      m.number_samples + dividedRate m.sample_rate_hz :=
    Int.emod_eq_of_lt (by omega) (by push_cast at hns32 ⊢; omega)
  have hns_val : ((((m.number_samples + dividedRate m.sample_rate_hz) %
      (2 : Int) ^ 32).toNat : Int)) = m.number_samples + dividedRate m.sample_rate_hz := by
    rw [hns_mod, Int.toNat_of_nonneg (by omega)]
  have hnsm32 : ((m.number_samples + dividedRate m.sample_rate_hz) %
      (2 : Int) ^ 32).toNat < 2 ^ 32 := by
    push_cast at hns32
    omega
  set nsm : Nat :=
    ((m.number_samples + dividedRate m.sample_rate_hz) % (2 : Int) ^ 32).toNat
    with hnsmdef
  refine ⟨_, henc, encBytes_bytes_lt _ _ _ hcsbyte, ?_⟩
  have hlength := encBytes_length nsm rid cs.flatten
  have hcrc_lt : crc32 (encTail nsm rid cs.flatten) < 2 ^ 32 :=
    crc32_lt (encTail_bytes_lt _ _ _ hcsbyte)
  have h1 : rdLE (encBytes nsm rid cs.flatten) 0 4 = HEADER_MAGIC1 := by
    rw [encBytes_rd0, fromLE_toLE_of_lt (by decide)]
  have h2 : rdLE (encBytes nsm rid cs.flatten) 12 4 = HEADER_MAGIC2 := by
    rw [encBytes_rd12, fromLE_toLE_of_lt (by decide)]
  have h3 : ((rdLE (encBytes nsm rid cs.flatten) 8 4 : Nat) : Int) =
      ((encBytes nsm rid cs.flatten).length : Int) - 48 := by
    rw [encBytes_rd8, fromLE_toLE_of_lt (by rw [hmod]; exact hlen), hmod, hlength]
    push_cast
    omega
  have h4 : crc32 ((encBytes nsm rid cs.flatten).drop 8) =
      rdLE (encBytes nsm rid cs.flatten) 4 4 := by
    rw [encBytes_drop8, encBytes_rd4, fromLE_toLE_of_lt hcrc_lt]
  have h5 : SHIFTED_SAMPLE_RATE_FROM_ID (rdLE (encBytes nsm rid cs.flatten) 28 4) =
      some m.sample_rate_hz := by
    rw [encBytes_rd28, fromLE_toLE_of_lt hrid32]
    exact hfrom
  have h6 : rdLE (encBytes nsm rid cs.flatten) 48 4 = 0x40000000 := by
    rw [encBytes_rd48, fromLE_toLE_of_lt (by decide)]
  have h7 : ((rdLE (encBytes nsm rid cs.flatten) 52 4 : Nat) : Int) =
      ((encBytes nsm rid cs.flatten).length : Int) - 48 := by
    rw [encBytes_rd52, fromLE_toLE_of_lt (by rw [hmod]; exact hlen), hmod, hlength]
    push_cast
    omega
  have h8 : decodeTLVLoop m.sample_rate_hz ((encBytes nsm rid cs.flatten).length + 1)
      ((encBytes nsm rid cs.flatten).drop 56) BandMap.empty =
      .ok m.frequency_band_to_sound_peaks := by
    rw [encBytes_drop56, hlength,
      hcsdec (56 + cs.flatten.length + 1) BandMap.empty (by omega),
      foldl_set_toList]
  rw [decode_unfold_ok _ m.sample_rate_hz m.frequency_band_to_sound_peaks
    h1 h2 h3 h4 h5 h6 h7 h8]
  have h40 : ((rdLE (encBytes nsm rid cs.flatten) 40 4 : Nat) : Int) -
      dividedRate m.sample_rate_hz = m.number_samples := by
    rw [encBytes_rd40, fromLE_toLE_of_lt hnsm32]
    omega
  rw [h40]

/-! ### Byte mutation lemmas (used for the checksum validation claim) -/

theorem take_set_of_le (l : List Nat) (i k v : Nat) (h : k ≤ i) :
    (l.set i v).take k = l.take k := by
  induction l generalizing i k with
  | nil => simp
  | cons b t ih =>
    cases k with
    | zero => simp
    | succ k =>
      cases i with
      | zero => omega
      | succ i =>
        simp only [List.set, List.take]
        rw [ih i k (by omega)]

theorem take_set_of_lt (l : List Nat) (j k v : Nat) (h : j < k) :
    (l.set j v).take k = (l.take k).set j v := by
  induction l generalizing j k with
  | nil => simp
  | cons b t ih =>
    cases j with
    | zero =>
      cases k with
      | zero => omega
      | succ k => simp [List.set, List.take]
    | succ j =>
      cases k with
      | zero => omega
      | succ k =>
        simp only [List.set, List.take]
        rw [ih j k (by omega)]

theorem drop_set_of_le (l : List Nat) (i k v : Nat) (h : k ≤ i) :
    (l.set i v).drop k = (l.drop k).set (i - k) v := by
  induction l generalizing i k with
  | nil => simp
  | cons b t ih =>
    cases k with
    | zero => simp
    | succ k =>
      cases i with
      | zero => omega
      | succ i =>
        simp only [List.set, List.drop]
        rw [ih i k (by omega)]
        congr 1
        omega

theorem drop_set_of_gt (l : List Nat) (i k v : Nat) (h : i < k) :
    (l.set i v).drop k = l.drop k := by
  induction l generalizing i k with
  | nil => simp
  | cons b t ih =>
    cases i with
    | zero =>
      cases k with
      | zero => omega
      | succ k => simp [List.set, List.drop]
    | succ i =>
      cases k with
      | zero => omega
      | succ k =>
        simp only [List.set, List.drop]
        rw [ih i k (by omega)]

theorem rdLE_set_before (l : List Nat) (i v off n : Nat) (h : off + n ≤ i) :
    rdLE (l.set i v) off n = rdLE l off n := by
  unfold rdLE
  rw [drop_set_of_le l i off v (by omega), take_set_of_le _ _ _ _ (by omega)]

theorem rdLE_set_after (l : List Nat) (i v off n : Nat) (h : i < off) :
    rdLE (l.set i v) off n = rdLE l off n := by
  unfold rdLE
  rw [drop_set_of_gt l i off v h]

theorem getD_drop (l : List Nat) (k j : Nat) :
    (l.drop k).getD j 0 = l.getD (k + j) 0 := by
  induction l generalizing k with
  | nil => simp
  | cons b t ih =>
    cases k with
    | zero => simp
    | succ k =>
      simp only [List.drop]
      rw [ih k, show k + 1 + j = (k + j) + 1 by omega]
      simp [List.getD_cons_succ]

theorem getD_take (l : List Nat) (n j : Nat) (hj : j < n) :
    (l.take n).getD j 0 = l.getD j 0 := by
  induction l generalizing n j with
  | nil => simp
  | cons b t ih =>
    cases n with
    | zero => omega
    | succ n =>
      cases j with
      | zero => simp [List.take]
      | succ j =>
        simp only [List.take, List.getD_cons_succ]
        exact ih n j (by omega)

theorem rdLE_set_inside_ne (l : List Nat) (i v off : Nat)
    (hb : ∀ x ∈ l, x < 256) (hv : v < 256) (hoff : off ≤ i) (hin : i < off + 4)
    (hlen : off + 4 ≤ l.length) (hne : v ≠ l.getD i 0) :
    rdLE (l.set i v) off 4 ≠ rdLE l off 4 := by
  unfold rdLE
  rw [drop_set_of_le l i off v hoff, take_set_of_lt _ _ _ _ (by omega)]
  apply fromLE_set_ne _ _ _ hv
  · intro x hx
    exact hb x (List.mem_of_mem_drop (List.mem_of_mem_take hx))
  · rw [List.length_take, List.length_drop]
    omega
  · rw [getD_take _ _ _ (by omega), getD_drop]
    rw [show off + (i - off) = i by omega]
    exact hne

theorem decode_err_magic (data : List Nat)
    (h : rdLE data 0 4 ≠ HEADER_MAGIC1 ∨ rdLE data 12 4 ≠ HEADER_MAGIC2) :
    DecodedMessage.decode_from_binary data =
      .error "Wrong magic string specified in header" := by
  unfold DecodedMessage.decode_from_binary
  rw [if_pos h]

theorem decode_err_size (data : List Nat)
    (h1 : rdLE data 0 4 = HEADER_MAGIC1) (h2 : rdLE data 12 4 = HEADER_MAGIC2)
    (h3 : (rdLE data 8 4 : Int) ≠ (data.length : Int) - 48) :
    DecodedMessage.decode_from_binary data =
      .error "Wrong size specified in header" := by
  unfold DecodedMessage.decode_from_binary
  rw [if_neg (by push_neg; exact ⟨h1, h2⟩), if_pos h3]

theorem decode_err_crc (data : List Nat)
    (h1 : rdLE data 0 4 = HEADER_MAGIC1) (h2 : rdLE data 12 4 = HEADER_MAGIC2)
    (h3 : (rdLE data 8 4 : Int) = (data.length : Int) - 48)
    (h4 : crc32 (data.drop 8) ≠ rdLE data 4 4) :
    DecodedMessage.decode_from_binary data =
      .error "Wrong checksum specified in header" := by
  unfold DecodedMessage.decode_from_binary
  rw [if_neg (by push_neg; exact ⟨h1, h2⟩), if_neg (by push_neg; omega), if_pos h4]

/-! ### Generator invariants -/

theorem bandInv_mono {N M : Int} (h : N ≤ M) {bm : BandMap} (hi : bandInv N bm) :
    bandInv M bm := by
  intro b l hl
  obtain ⟨hs, hp⟩ := hi b l hl
  exact ⟨hs, fun p hp2 => le_trans (hp p hp2) h⟩

theorem bandInv_empty (N : Int) : bandInv N BandMap.empty := by
  intro b l hl
  cases b <;> exact Option.noConfusion hl

theorem appendPeak_inv {N : Int} {bm : BandMap} {b : FrequencyBand}
    {pk : FrequencyPeak} (hinv : bandInv N bm) (hpk : pk.fft_pass_number = N) :
    bandInv N (appendPeak bm b pk) := by
  intro b2 l2 hl2
  unfold appendPeak at hl2
  rw [get_set] at hl2
  by_cases he : b2 = b
  · rw [if_pos he] at hl2
    cases hl2
    constructor
    · cases hget : bm.get b with
      | none => simp [sortedPeaks]
      | some old =>
        obtain ⟨hs, hbd⟩ := hinv b old hget
        simp only [Option.getD_some]
        apply List.Chain'.append hs (by simp [sortedPeaks])
        intro x hx y hy
        simp only [List.head?_cons, Option.mem_def, Option.some.injEq] at hy
        subst hy
        obtain ⟨hne, hx2⟩ := List.mem_getLast?_eq_getLast hx
        have hxmem : x ∈ old := hx2 ▸ List.getLast_mem hne
        rw [hpk]
        exact hbd x hxmem
    · intro p hp
      rcases List.mem_append.mp hp with hp2 | hp2
      · cases hget : bm.get b with
        | none =>
          rw [hget] at hp2
          simp at hp2
        | some old =>
          rw [hget] at hp2
          simp only [Option.getD_some] at hp2
          exact (hinv b old hget).2 p hp2
      · have hppk := List.mem_singleton.mp hp2
        rw [hppk, hpk]
  · rw [if_neg he] at hl2
    exact hinv b2 l2 hl2

theorem processBin_emit_fpn {v : PassView} {fftN : Int} {k : Nat}
    {b : FrequencyBand} {pk : FrequencyPeak}
    (h : processBin v fftN k = .ok (some (b, pk))) :
    pk.fft_pass_number = fftN := by
  simp only [processBin] at h
  split_ifs at h
  all_goals
    first
      | exact Except.noConfusion h
      | exact Option.noConfusion (Except.ok.inj h)
      | exact (congrArg (fun pr => pr.2.fft_pass_number)
          (Option.some.inj (Except.ok.inj h))).symm

theorem recognizePass_inv {v : PassView} {N : Int} {bm : BandMap}
    (hinv : bandInv N bm) : bandInv N (recognizePass v N bm).1 := by
  unfold recognizePass
  generalize List.range' 10 1005 = ks
  suffices h : ∀ (acc : BandMap × Option String), bandInv N acc.1 →
      bandInv N (ks.foldl (fun acc k =>
        match acc.2 with
        | some _ => acc
        | none =>
          match processBin v N k with
          | .error e => (acc.1, some e)
          | .ok none => acc
          | .ok (some (band, pk)) => (appendPeak acc.1 band pk, none)) acc).1 by
    exact h (bm, none) hinv
  induction ks with
  | nil => intro acc hacc; exact hacc
  | cons k ks ih =>
    intro acc hacc
    rw [List.foldl_cons]
    apply ih
    cases hs : acc.2 with
    | some e => simpa [hs] using hacc
    | none =>
      cases hp : processBin v N k with
      | error e => simpa [hs, hp] using hacc
      | ok o =>
        cases o with
        | none => simpa [hs, hp] using hacc
        | some pr =>
          obtain ⟨band, pk⟩ := pr
          simp only [hs, hp]
          exact appendPeak_inv hacc (processBin_emit_fpn hp)

theorem processChunk_inv {om : Nat → PassView} {s : GenState}
    (h : bandInv ((s.numWritten : Int) - 46)
      s.next_signature.frequency_band_to_sound_peaks) :
    bandInv (((processChunk om s).1.numWritten : Int) - 46)
      (processChunk om s).1.next_signature.frequency_band_to_sound_peaks := by
  have hmono : bandInv (((s.numWritten + 1 : Nat) : Int) - 46)
      s.next_signature.frequency_band_to_sound_peaks :=
    bandInv_mono (by push_cast; omega) h
  unfold processChunk
  by_cases h46 : 46 ≤ s.numWritten + 1
  · rw [if_pos h46]
    dsimp only
    exact recognizePass_inv hmono
  · rw [if_neg h46]
    dsimp only
    exact hmono

theorem processChunk_frame (om : Nat → PassView) (s : GenState) :
    (processChunk om s).1.pendingLen = s.pendingLen ∧
      (processChunk om s).1.samples_processed = s.samples_processed := by
  simp only [processChunk]
  split <;> exact ⟨rfl, rfl⟩

theorem consumeLoop_inv (om : Nat → PassView) :
    ∀ (fuel : Nat) (s : GenState),
    bandInv ((s.numWritten : Int) - 46)
      s.next_signature.frequency_band_to_sound_peaks →
    bandInv (((consumeLoop om fuel s).1.numWritten : Int) - 46)
      (consumeLoop om fuel s).1.next_signature.frequency_band_to_sound_peaks := by
  intro fuel
  induction fuel with
  | zero => intro s h; exact h
  | succ fuel ih =>
    intro s h
    rw [consumeLoop]
    by_cases hg : loopGuard s
    · rw [if_pos hg]
      rcases hpc : processChunk om s with ⟨s2, e⟩
      have h2 := @processChunk_inv om s h
      rw [hpc] at h2
      cases e with
      | none => exact ih _ h2
      | some e2 => exact h2
    · rw [if_neg hg]
      exact h

theorem get_next_inv (om : Nat → PassView) (s : GenState)
    (h : bandInv ((s.numWritten : Int) - 46)
      s.next_signature.frequency_band_to_sound_peaks) :
    (∀ msg, (get_next_signature om s).1.1 = some msg →
      ∀ b l, msg.frequency_band_to_sound_peaks.get b = some l → sortedPeaks l) ∧
    bandInv ((((get_next_signature om s).1.2).numWritten : Int) - 46)
      ((get_next_signature om s).1.2).next_signature.frequency_band_to_sound_peaks := by
  unfold get_next_signature
  by_cases hr : s.pendingLen - s.samples_processed < 128
  · rw [if_pos hr]
    exact ⟨fun msg hm => Option.noConfusion hm, h⟩
  · rw [if_neg hr]
    rcases hcl : consumeLoop om (s.pendingLen - s.samples_processed) s with ⟨s2, e⟩
    have h2 := consumeLoop_inv om (s.pendingLen - s.samples_processed) s h
    rw [hcl] at h2
    cases e with
    | none =>
      refine ⟨?_, bandInv_empty _⟩
      intro msg hm
      cases hm
      intro b l hl
      exact (h2 b l hl).1
    | some e2 => exact ⟨fun msg hm => Option.noConfusion hm, h2⟩

theorem runOps_sorted (om : Nat → PassView) :
    ∀ (ops : List GenOp) (s : GenState),
    bandInv ((s.numWritten : Int) - 46)
      s.next_signature.frequency_band_to_sound_peaks →
    ∀ msg ∈ (runOps om ops s).2, ∀ b l,
      msg.frequency_band_to_sound_peaks.get b = some l → sortedPeaks l := by
  intro ops
  induction ops with
  | nil => intro s _ msg hmsg; cases hmsg
  | cons op ops ih =>
    intro s hinv msg hmsg
    cases op with
    | feed n =>
      exact ih (feed_input n s) hinv msg hmsg
    | getNext =>
      have hgn := get_next_inv om s hinv
      unfold runOps at hmsg
      rcases hg : get_next_signature om s with ⟨⟨omsg, s2⟩, err⟩
      rw [hg] at hmsg hgn
      cases err with
      | none =>
        cases omsg with
        | none => exact ih s2 hgn.2 msg hmsg
        | some m2 =>
          simp only [List.mem_cons] at hmsg
          rcases hmsg with rfl | hmsg
          · exact hgn.1 msg rfl
          · exact ih s2 hgn.2 msg hmsg
      | some e2 => cases hmsg

/-! ### Evaluating the generator on concrete input -/

theorem processChunk_small (om : Nat → PassView) (s : GenState)
    (h : ¬ 46 ≤ s.numWritten + 1) :
    processChunk om s =
      ({ s with
          next_signature := ⟨s.next_signature.sample_rate_hz,
            s.next_signature.number_samples + 128,
            s.next_signature.frequency_band_to_sound_peaks⟩,
          numWritten := s.numWritten + 1,
          passCount := s.passCount + 1 }, none) := by
  unfold processChunk
  rw [if_neg h]

theorem consumeLoop_stop (om : Nat → PassView) (s : GenState)
    (h : ¬ loopGuard s) : ∀ fuel, consumeLoop om fuel s = (s, none) := by
  intro fuel
  cases fuel with
  | zero => rfl
  | succ f => rw [consumeLoop, if_neg h]

theorem consumeLoop_split (om : Nat → PassView) :
    ∀ (a : Nat) (b : Nat) (s s2 : GenState),
    consumeLoop om a s = (s2, none) →
    consumeLoop om (a + b) s = consumeLoop om b s2 := by
  intro a
  induction a with
  | zero =>
    intro b s s2 h
    cases (Prod.mk.injEq .. ▸ h :
      s = s2 ∧ (none : Option String) = none).1
    rw [Nat.zero_add]
  | succ a ih =>
    intro b s s2 h
    rw [consumeLoop] at h
    rw [show a + 1 + b = (a + b) + 1 by omega, consumeLoop]
    by_cases hg : loopGuard s
    · rw [if_pos hg] at h ⊢
      rcases hpc : processChunk om s with ⟨s3, e⟩
      rw [hpc] at h
      cases e with
      | none => exact ih b _ s2 h
      | some e2 =>
        exact absurd (congrArg Prod.snd h) (by simp)
    · rw [if_neg hg] at h ⊢
      cases (Prod.mk.injEq .. ▸ h :
        s = s2 ∧ (none : Option String) = none).1
      exact (consumeLoop_stop om s hg b).symm

theorem consumeLoop_om_irrel (om om2 : Nat → PassView) :
    ∀ (fuel : Nat) (s : GenState),
    s.numWritten + (s.pendingLen - s.samples_processed) / 128 ≤ 45 →
    consumeLoop om fuel s = consumeLoop om2 fuel s := by
  intro fuel
  induction fuel with
  | zero => intro s _; rfl
  | succ f ih =>
    intro s h
    rw [consumeLoop, consumeLoop]
    by_cases hg : loopGuard s
    · rw [if_pos hg, if_pos hg]
      have hrem := hg.1
      have h46 : ¬ 46 ≤ s.numWritten + 1 := by omega
      rw [processChunk_small om s h46, processChunk_small om2 s h46]
      dsimp only
      exact ih _ (by dsimp only; omega)
    · rw [if_neg hg, if_neg hg]

theorem recognize_foldl_skip (v : PassView) (N : Int) :
    ∀ (ks : List Nat) (acc : BandMap × Option String),
    (∀ k ∈ ks, processBin v N k = .ok none) →
    ks.foldl
      (fun acc k =>
        match acc.2 with
        | some _ => acc
        | none =>
          match processBin v N k with
          | .error e => (acc.1, some e)
          | .ok none => acc
          | .ok (some (band, pk)) => (appendPeak acc.1 band pk, none)) acc = acc := by
  intro ks
  induction ks with
  | nil => intro acc _; rfl
  | cons k ks ih =>
    intro acc h
    have hk := h k (List.mem_cons_self _ _)
    have ht := fun k2 hk2 => h k2 (List.mem_cons_of_mem _ hk2)
    cases hacc : acc.2 with
    | some e =>
      simp only [List.foldl_cons, hacc]
      exact ih acc ht
    | none =>
      simp only [List.foldl_cons, hacc, hk]
      exact ih acc ht

theorem recognizePass_single (v : PassView) (N : Int) (b : FrequencyBand)
    (pk : FrequencyPeak) (k0 : Nat) (ks1 ks2 : List Nat) (bm : BandMap)
    (hsplit : List.range' 10 1005 = ks1 ++ k0 :: ks2)
    (h1 : ∀ k ∈ ks1, processBin v N k = .ok none)
    (h2 : ∀ k ∈ ks2, processBin v N k = .ok none)
    (hk : processBin v N k0 = .ok (some (b, pk))) :
    recognizePass v N bm = (appendPeak bm b pk, none) := by
  unfold recognizePass
  rw [hsplit, List.foldl_append, recognize_foldl_skip v N ks1 (bm, none) h1,
    List.foldl_cons]
  have hstep : (match (bm, (none : Option String)).2 with
      | some _ => (bm, (none : Option String))
      | none =>
        match processBin v N k0 with
        | .error e => (bm, some e)
        | .ok none => (bm, none)
        | .ok (some (band, pk)) => (appendPeak bm band pk, none)) =
      (appendPeak bm b pk, none) := by
    rw [hk]
  rw [hstep]
  exact recognize_foldl_skip v N ks2 _ h2

theorem ball_range'_append (P : Nat → Prop) (s n m : Nat)
    (h1 : ∀ k ∈ List.range' s n, P k) (h2 : ∀ k ∈ List.range' (s + n) m, P k) :
    ∀ k ∈ List.range' s (m + n), P k := by
  intro k hk
  rw [← List.range'_append_1, List.mem_append] at hk
  rcases hk with h | h
  · exact h1 k h
  · exact h2 k h

set_option maxRecDepth 40000 in
theorem recognizePass_vOne (bm : BandMap) :
    recognizePass vOne 0 bm =
      (appendPeak bm .band_250_520 ⟨0, 6144, 4096, 16000⟩, none) := by
  refine recognizePass_single vOne 0 .band_250_520 ⟨0, 6144, 4096, 16000⟩ 64
    (List.range' 10 54) (List.range' 65 950) bm ?_ ?_ ?_ ?_
  · rw [show (1005 : Nat) = 951 + 54 from rfl, ← List.range'_append_1 10 54 951]
    rfl
  · decide
  · have hA : ∀ k ∈ List.range' 65 190, processBin vOne 0 k = .ok none := by decide
    have hB : ∀ k ∈ List.range' 255 190, processBin vOne 0 k = .ok none := by decide
    have hC : ∀ k ∈ List.range' 445 190, processBin vOne 0 k = .ok none := by decide
    have hD : ∀ k ∈ List.range' 635 190, processBin vOne 0 k = .ok none := by decide
    have hE : ∀ k ∈ List.range' 825 190, processBin vOne 0 k = .ok none := by decide
    exact ball_range'_append _ 65 760 190
      (ball_range'_append _ 65 570 190
        (ball_range'_append _ 65 380 190
          (ball_range'_append _ 65 190 190 hA hB) hC) hD) hE
  · decide

set_option maxRecDepth 40000 in
theorem consumeLoop_vOne :
    consumeLoop (fun _ => vOne) 5888 ⟨5888, 0, 0, 0, ⟨16000, 0, BandMap.empty⟩⟩ =
      (⟨5888, 5888, 46, 46, ⟨16000, 5888,
        ⟨none, some [⟨0, 6144, 4096, 16000⟩], none, none, none⟩⟩⟩, none) := by
  have h45 : consumeLoop (fun _ => vOne) 45 ⟨5888, 0, 0, 0, ⟨16000, 0, BandMap.empty⟩⟩ =
      (⟨5888, 5760, 45, 45, ⟨16000, 5760, BandMap.empty⟩⟩, none) := by decide
  have h1 : consumeLoop (fun _ => vOne) 5888 ⟨5888, 0, 0, 0, ⟨16000, 0, BandMap.empty⟩⟩ =
      consumeLoop (fun _ => vOne) 5843 ⟨5888, 5760, 45, 45, ⟨16000, 5760, BandMap.empty⟩⟩ :=
    consumeLoop_split (fun _ => vOne) 45 5843 _ _ h45
  rw [h1]
  have hpc : processChunk (fun _ => vOne) ⟨5888, 5760, 45, 45, ⟨16000, 5760, BandMap.empty⟩⟩ =
      (⟨5888, 5760, 46, 46, ⟨16000, 5888,
        ⟨none, some [⟨0, 6144, 4096, 16000⟩], none, none, none⟩⟩⟩, none) := by
    unfold processChunk
    rw [if_pos (by decide)]
    dsimp only
    rw [show (((45 + 1 : Nat) : Int) - 46 : Int) = 0 by norm_num, recognizePass_vOne]
    decide
  show consumeLoop (fun _ => vOne) (5842 + 1)
      ⟨5888, 5760, 45, 45, ⟨16000, 5760, BandMap.empty⟩⟩ = _
  rw [consumeLoop, if_pos (by decide), hpc]
  exact consumeLoop_stop _ _ (by decide) 5842

theorem runOps_vOne :
    (runOps (fun _ => vOne) [.feed 5888, .getNext] initGen).2 =
      [⟨16000, 5888, ⟨none, some [⟨0, 6144, 4096, 16000⟩], none, none, none⟩⟩] := by
  have hgn : get_next_signature (fun _ => vOne) ⟨5888, 0, 0, 0, ⟨16000, 0, BandMap.empty⟩⟩ =
      ((some ⟨16000, 5888, ⟨none, some [⟨0, 6144, 4096, 16000⟩], none, none, none⟩⟩,
        ⟨5888, 5888, 46, 0, ⟨16000, 0, BandMap.empty⟩⟩), none) := by
    unfold get_next_signature
    rw [if_neg (by decide)]
    norm_num
    rw [consumeLoop_vOne]
  simp only [runOps]
  rw [show feed_input 5888 initGen = ⟨5888, 0, 0, 0, ⟨16000, 0, BandMap.empty⟩⟩ from by decide,
    hgn]

theorem runOps_zero (om : Nat → PassView) :
    (runOps om [.feed 2048, .getNext] initGen).2 = [⟨16000, 2048, BandMap.empty⟩] := by
  have hirr : consumeLoop om 2048 ⟨2048, 0, 0, 0, ⟨16000, 0, BandMap.empty⟩⟩ =
      consumeLoop (fun _ => vOne) 2048 ⟨2048, 0, 0, 0, ⟨16000, 0, BandMap.empty⟩⟩ :=
    consumeLoop_om_irrel om (fun _ => vOne) 2048 _ (by decide)
  have hcl : consumeLoop om 2048 ⟨2048, 0, 0, 0, ⟨16000, 0, BandMap.empty⟩⟩ =
      (⟨2048, 2048, 16, 16, ⟨16000, 2048, BandMap.empty⟩⟩, none) := by
    rw [hirr]; decide
  have hgn : get_next_signature om ⟨2048, 0, 0, 0, ⟨16000, 0, BandMap.empty⟩⟩ =
      ((some ⟨16000, 2048, BandMap.empty⟩,
        ⟨2048, 2048, 16, 0, ⟨16000, 0, BandMap.empty⟩⟩), none) := by
    unfold get_next_signature
    rw [if_neg (by decide)]
    norm_num
    rw [hcl]
  simp only [runOps]
  rw [show feed_input 2048 initGen = ⟨2048, 0, 0, 0, ⟨16000, 0, BandMap.empty⟩⟩ from by decide,
    hgn]

/-! ### The claims -/

/-- C1 (amended): for every message with a supported sample rate, a
non-negative sample count small enough that the 32-bit header field does
not wrap, fewer than `2 ^ 27` peaks in total, and per-band peak lists that
are sorted with in-range fields, `decode_from_binary` of
`encode_to_binary` returns the message itself, field by field. The
original claim, without the sample-count bound, fails: the header store
masks `number_samples + rate * 0.24` to 32 bits (see the counterexample,
where `number_samples = 2 ^ 32` comes back as `0`). -/
theorem spec_C1 (m : DecodedMessage) (hm : validMessage m) :
    ∃ bs, m.encode_to_binary = .ok bs ∧
      DecodedMessage.decode_from_binary bs = .ok m := by
  obtain ⟨bs, h1, _, h2⟩ := roundtrip_main m hm
  exact ⟨bs, h1, h2⟩

set_option maxRecDepth 10000 in
theorem spec_C1_witness :
    ∃ bs, (⟨16000, 2048, ⟨none, none, some [⟨10, 100, 640, 16000⟩], none, none⟩⟩ :
        DecodedMessage).encode_to_binary = .ok bs ∧
      DecodedMessage.decode_from_binary bs =
        .ok ⟨16000, 2048, ⟨none, none, some [⟨10, 100, 640, 16000⟩], none, none⟩⟩ :=
  spec_C1 ⟨16000, 2048, ⟨none, none, some [⟨10, 100, 640, 16000⟩], none, none⟩⟩ (by decide)

set_option maxRecDepth 10000 in
/-- C1, counterexample to the unamended claim: the message with
`sample_rate_hz = 16000`, `number_samples = 2 ^ 32` and no peaks meets
every hypothesis of the claim (supported rate, all bands empty, hence
sorted and in range), yet decoding its encoding yields `number_samples =
0`, not `2 ^ 32`. -/
theorem spec_C1_cex :
    ((⟨16000, 2 ^ 32, BandMap.empty⟩ : DecodedMessage).encode_to_binary.bind
        DecodedMessage.decode_from_binary) = .ok ⟨16000, 0, BandMap.empty⟩ ∧
      (⟨16000, 0, BandMap.empty⟩ : DecodedMessage) ≠ ⟨16000, 2 ^ 32, BandMap.empty⟩ := by
  constructor
  · decide
  · decide

/-- C2 (amended): for the two peaks `(10, 100, 640)` and `(265, 200, 640)`
in one band, the encoder emits the delta byte `0x0A` for the first peak
(no escape: its delta from 0 is 10) and an `0xFF` escape with the absolute
little-endian pass number 265 followed by delta byte 0 for the second
(its delta, 255, triggers the resync); the full stream is
`0A 64 00 80 02 FF 09 01 00 00 00 C8 00 80 02`, not the twenty bytes the
original claim lists (see the counterexample). -/
theorem spec_C2 :
    encodePeaks 0 [⟨10, 100, 640, 16000⟩, ⟨265, 200, 640, 16000⟩] =
      .ok [10, 100, 0, 128, 2, 255, 9, 1, 0, 0, 0, 200, 0, 128, 2] ∧
    [10, 100, 0, 128, 2, 255, 9, 1, 0, 0, 0, 200, 0, 128, 2] =
      [10, 100, 0, 128, 2] ++ 255 :: (toLE 4 265 ++ [0, 200, 0, 128, 2]) := by
  constructor
  · decide
  · rfl

/-- C2, counterexample to the claimed byte sequence: the encoded stream
for those two peaks is 15 bytes long, so it cannot contain the 20-byte
sequence `FF 09 01 00 00 00 64 00 80 02 FF 09 01 00 00 00 C8 00 80 02`
the claim asserts (the first peak is encoded as a plain delta, not an
escape). -/
theorem spec_C2_cex :
    ¬ ∃ pre post : List Nat,
      encodePeaks 0 [⟨10, 100, 640, 16000⟩, ⟨265, 200, 640, 16000⟩] =
        .ok (pre ++ ([255, 9, 1, 0, 0, 0, 100, 0, 128, 2,
          255, 9, 1, 0, 0, 0, 200, 0, 128, 2] ++ post)) := by
  rintro ⟨pre, post, h⟩
  have he : encodePeaks 0 [⟨10, 100, 640, 16000⟩, ⟨265, 200, 640, 16000⟩] =
      .ok [10, 100, 0, 128, 2, 255, 9, 1, 0, 0, 0, 200, 0, 128, 2] := by decide
  rw [he] at h
  have hl := congrArg List.length (Except.ok.inj h)
  simp only [List.length_append, List.length_cons, List.length_nil] at hl
  omega

/-- C3: at a bin that passes the amplitude gate, the frequency-domain
local-max test and the time-domain local-max test, `do_peak_recognition`
raises the fatal `peak_variation_1 is not positive` error exactly when
`v1 = 2 L(k) - L(k-1) - L(k+1) ≤ 0` (so no peak is emitted then, and the
interpolation `v2` only ever contributes to a stored peak when
`v1 > 0`). -/
theorem spec_C3 (v : PassView) (fftN : Int) (k : Nat)
    (hgate : 1/64 ≤ v.p46 k ∧ v.s49 (k - 1) ≤ v.p46 k)
    (hfreq : freqOffsets.foldl (fun acc d => max (v.s49 ((k : Int) + d).toNat) acc) 0 <
      v.p46 k)
    (htime : timeOffsets.foldl (fun acc t => max (v.spreadAt t (k - 1)) acc)
      (freqOffsets.foldl (fun acc d => max (v.s49 ((k : Int) + d).toNat) acc) 0) <
      v.p46 k) :
    (processBin v fftN k = .error "peak_variation_1 is not positive" ↔
      peakVariation1 v k ≤ 0) := by
  unfold peakVariation1
  simp only [processBin]
  rw [if_pos hgate, if_pos hfreq, if_pos htime]
  by_cases hv1 : v.logm k * 2 - v.logm (k - 1) - v.logm (k + 1) ≤ 0
  · rw [if_pos hv1]
    simp [hv1]
  · rw [if_neg hv1]
    constructor
    · intro h
      split_ifs at h <;> exact Except.noConfusion h
    · intro h
      exact absurd h hv1

set_option maxRecDepth 10000 in
/-- C3 witness: a flat log-magnitude spectrum (`L = 5` everywhere) passes
all three gates at bin 64 but has `v1 = 0`, so the fatal error fires. -/
theorem spec_C3_witness :
    processBin ⟨fun _ => 1, fun _ => 0, fun _ _ => 0, fun _ => 5⟩ 0 64 =
        .error "peak_variation_1 is not positive" ↔
      peakVariation1 ⟨fun _ => 1, fun _ => 0, fun _ _ => 0, fun _ => 5⟩ 64 ≤ 0 :=
  spec_C3 ⟨fun _ => 1, fun _ => 0, fun _ _ => 0, fun _ => 5⟩ 0 64
    (by constructor <;> decide) (by decide) (by decide)

/-- C4: mutating any single byte at offset 8 or later of a valid encoding
(to any other byte value) makes `decode_from_binary` raise an error: the
size field, the second magic and the whole checksummed region are all
covered by the header checks. -/
theorem spec_C4 (m : DecodedMessage) (hm : validMessage m) (bs : List Nat)
    (henc : m.encode_to_binary = .ok bs) (i v : Nat) (hi8 : 8 ≤ i)
    (hilen : i < bs.length) (hv : v < 256) (hne : v ≠ bs.getD i 0) :
    ∃ e, DecodedMessage.decode_from_binary (bs.set i v) = .error e := by
  obtain ⟨bs2, henc2, hbytes, hdec⟩ := roundtrip_main m hm
  rw [henc] at henc2
  cases Except.ok.inj henc2
  unfold DecodedMessage.decode_from_binary at hdec
  by_cases h1 : rdLE bs 0 4 ≠ HEADER_MAGIC1 ∨ rdLE bs 12 4 ≠ HEADER_MAGIC2
  · rw [if_pos h1] at hdec
    exact absurd hdec (by simp)
  rw [if_neg h1] at hdec
  push_neg at h1
  obtain ⟨hm1, hm2⟩ := h1
  by_cases h2 : (rdLE bs 8 4 : Int) ≠ (bs.length : Int) - 48
  · rw [if_pos h2] at hdec
    exact absurd hdec (by simp)
  rw [if_neg h2] at hdec
  push_neg at h2
  by_cases h3 : crc32 (bs.drop 8) ≠ rdLE bs 4 4
  · rw [if_pos h3] at hdec
    exact absurd hdec (by simp)
  push_neg at h3
  have hlen48 : 48 ≤ bs.length := by
    have h0 : (0 : Int) ≤ (rdLE bs 8 4 : Int) := by positivity
    omega
  clear hdec
  rcases lt_or_le i 12 with hi12 | hi12
  · refine ⟨"Wrong size specified in header", decode_err_size _ ?_ ?_ ?_⟩
    · rw [rdLE_set_before bs i v 0 4 (by omega)]
      exact hm1
    · rw [rdLE_set_after bs i v 12 4 (by omega)]
      exact hm2
    · rw [List.length_set]
      intro hcontra
      apply rdLE_set_inside_ne bs i v 8 hbytes hv (by omega) (by omega) (by omega) hne
      have : (rdLE (bs.set i v) 8 4 : Int) = (rdLE bs 8 4 : Int) := by
        rw [hcontra, h2]
      exact_mod_cast this
  rcases lt_or_le i 16 with hi16 | hi16
  · refine ⟨"Wrong magic string specified in header", decode_err_magic _ (Or.inr ?_)⟩
    rw [show rdLE (bs.set i v) 12 4 ≠ HEADER_MAGIC2 ↔
        rdLE (bs.set i v) 12 4 ≠ rdLE bs 12 4 from by rw [hm2]]
    exact rdLE_set_inside_ne bs i v 12 hbytes hv (by omega) (by omega) (by omega) hne
  · refine ⟨"Wrong checksum specified in header", decode_err_crc _ ?_ ?_ ?_ ?_⟩
    · rw [rdLE_set_before bs i v 0 4 (by omega)]
      exact hm1
    · rw [rdLE_set_before bs i v 12 4 (by omega)]
      exact hm2
    · rw [rdLE_set_before bs i v 8 4 (by omega), List.length_set]
      exact h2
    · rw [rdLE_set_before bs i v 4 4 (by omega),
        drop_set_of_le bs i 8 v (by omega), ← h3]
      apply crc32_set_ne (bs.drop 8) (i - 8) v
      · intro x hx
        exact hbytes x (List.mem_of_mem_drop hx)
      · exact hv
      · rw [List.length_drop]
        omega
      · rw [getD_drop, show 8 + (i - 8) = i by omega]
        exact hne

set_option maxRecDepth 10000 in
theorem spec_C4_witness :
    ∃ e, DecodedMessage.decode_from_binary
        (([128, 37, 254, 202, 170, 56, 63, 185, 8, 0, 0, 0, 0, 156, 17, 148,
          0, 0, 0, 0, 0, 0, 0, 0, 0, 0, 0, 0, 0, 0, 0, 24, 0, 0, 0, 0,
          0, 0, 0, 0, 0, 15, 0, 0, 0, 0, 124, 0, 0, 0, 0, 64, 8, 0, 0, 0] :
          List Nat).set 20 7) = .error e :=
  spec_C4 ⟨16000, 0, BandMap.empty⟩ (by decide)
    [128, 37, 254, 202, 170, 56, 63, 185, 8, 0, 0, 0, 0, 156, 17, 148,
      0, 0, 0, 0, 0, 0, 0, 0, 0, 0, 0, 0, 0, 0, 0, 24, 0, 0, 0, 0,
      0, 0, 0, 0, 0, 15, 0, 0, 0, 0, 124, 0, 0, 0, 0, 64, 8, 0, 0, 0]
    (by decide) 20 7 (by decide) (by decide) (by decide) (by decide)

/-- C5: one iteration of the consume loop of `get_next_signature` runs
exactly when at least 128 unconsumed samples remain and either time budget
(`number_samples / sample_rate_hz < 3.1`) or peak budget (total stored
peaks `< 255`) is unspent; once both budgets are spent the loop consumes
nothing more regardless of remaining input, and `get_next_signature`
terminates, returning the accumulated signature. -/
theorem spec_C5 (om : Nat → PassView) :
    (∀ (s : GenState) (fuel : Nat), consumeLoop om (fuel + 1) s =
      if loopGuard s then
        match processChunk om s with
        | (s2, none) => consumeLoop om fuel
            { s2 with samples_processed := s2.samples_processed + 128 }
        | (s2, some e) => (s2, some e)
      else (s, none)) ∧
    (∀ s : GenState, s.next_signature.sample_rate_hz = 16000 →
      (31 : ℚ) / 10 ≤ (s.next_signature.number_samples : ℚ) / 16000 →
      255 ≤ totalPeaks s.next_signature.frequency_band_to_sound_peaks →
      (∀ fuel, consumeLoop om fuel s = (s, none)) ∧
      (128 ≤ s.pendingLen - s.samples_processed →
        get_next_signature om s =
          ((some s.next_signature,
            { s with
                next_signature := ⟨16000, 0, BandMap.empty⟩,
                numWritten := 0 }), none))) := by
  constructor
  · intro s fuel
    rfl
  · intro s hrate htime hpeaks
    have hguard : ¬ loopGuard s := by
      intro hg
      rcases hg.2 with ht | hp
      · rw [hrate] at ht
        push_cast at ht
        exact absurd ht (not_lt.mpr htime)
      · omega
    refine ⟨consumeLoop_stop om s hguard, ?_⟩
    intro hrem
    unfold get_next_signature
    rw [if_neg (by omega), consumeLoop_stop om s hguard]

set_option maxRecDepth 10000 in
/-- C5 witness: a state holding 255 peaks and 3.1 seconds of samples
consumes nothing more even though 256 unconsumed samples remain. -/
theorem spec_C5_witness :
    consumeLoop (fun _ => vOne) 7
        ⟨256, 0, 0, 0, ⟨16000, 49600,
          ⟨none, some (List.replicate 255 ⟨0, 0, 0, 16000⟩), none, none, none⟩⟩⟩ =
      (⟨256, 0, 0, 0, ⟨16000, 49600,
        ⟨none, some (List.replicate 255 ⟨0, 0, 0, 16000⟩), none, none, none⟩⟩⟩, none) :=
  ((spec_C5 (fun _ => vOne)).2
    ⟨256, 0, 0, 0, ⟨16000, 49600,
      ⟨none, some (List.replicate 255 ⟨0, 0, 0, 16000⟩), none, none, none⟩⟩⟩
    rfl (by norm_num) (by decide)).1 7

/-- C6: every signature the generator returns — for any fed input, any
sequence of caller operations and any spectral data — has each band's
peak list sorted by `fft_pass_number`, monotonically non-decreasing. -/
theorem spec_C6 (om : Nat → PassView) (ops : List GenOp) (msg : DecodedMessage)
    (hmsg : msg ∈ (runOps om ops initGen).2) (b : FrequencyBand)
    (l : List FrequencyPeak)
    (hl : msg.frequency_band_to_sound_peaks.get b = some l) : sortedPeaks l :=
  runOps_sorted om ops initGen (bandInv_empty _) msg hmsg b l hl

/-- C6 witness: running the generator on 5888 samples of a spectrum with
one isolated peak yields one signature whose only band entry is the
(one-element, hence sorted) list of that peak. -/
theorem spec_C6_witness : sortedPeaks [⟨0, 6144, 4096, 16000⟩] :=
  spec_C6 (fun _ => vOne) [.feed 5888, .getNext]
    ⟨16000, 5888, ⟨none, some [⟨0, 6144, 4096, 16000⟩], none, none, none⟩⟩
    (by rw [runOps_vOne]; exact List.mem_cons_self _ _)
    .band_250_520 [⟨0, 6144, 4096, 16000⟩] rfl

/-- C7 (amended): under the claimed field bounds strengthened with
`fft_pass_number < 2 ^ 32` and a total peak count below `2 ^ 27`,
`encode_to_binary` raises the sorting error
`frequency_peak.fft_pass_number < fft_pass_number` exactly when some
band's list has a decreasing adjacent pair, and succeeds otherwise. The
original claim, with non-negativity alone, fails: a sorted singleton with
`fft_pass_number = 2 ^ 32` raises `int too big to convert` (see the
counterexample). -/
theorem spec_C7 (m : DecodedMessage)
    (hrate : (SHIFTED_SAMPLE_RATE_TO_ID m.sample_rate_hz).isSome = true)
    (hb : ∀ b ∈ allBands,
      ∀ p ∈ (m.frequency_band_to_sound_peaks.get b).getD [], peakBounds p)
    (htp : totalPeaks m.frequency_band_to_sound_peaks < 2 ^ 27) :
    ((∃ b l, m.frequency_band_to_sound_peaks.get b = some l ∧ ¬ sortedPeaks l) →
      m.encode_to_binary =
        .error "frequency_peak.fft_pass_number < fft_pass_number") ∧
    ((∀ b l, m.frequency_band_to_sound_peaks.get b = some l → sortedPeaks l) →
      ∃ bs, m.encode_to_binary = .ok bs) := by
  obtain ⟨rid, hrid⟩ := Option.isSome_iff_exists.mp hrate
  have hentries_bounds : ∀ e ∈ m.frequency_band_to_sound_peaks.toList,
      ∀ p ∈ e.2, peakBounds p := by
    intro e he p hp
    have hget : m.frequency_band_to_sound_peaks.get e.1 = some e.2 :=
      toList_mem (by cases e; exact he)
    have := hb e.1 (mem_allBands e.1)
    rw [hget] at this
    exact this p hp
  have hentries_count : ∀ e ∈ m.frequency_band_to_sound_peaks.toList,
      e.2.length < 2 ^ 27 := by
    intro e he
    have hget : m.frequency_band_to_sound_peaks.get e.1 = some e.2 :=
      toList_mem (by cases e; exact he)
    have hmem : e.2.length ∈ allBands.map
        fun b => ((m.frequency_band_to_sound_peaks.get b).getD []).length := by
      rw [List.mem_map]
      exact ⟨e.1, mem_allBands e.1, by rw [hget]; rfl⟩
    have hle : e.2.length ≤ totalPeaks m.frequency_band_to_sound_peaks :=
      List.single_le_sum (fun x _ => Nat.zero_le x) _ hmem
    omega
  constructor
  · rintro ⟨b, l, hget, hns⟩
    have herr := mapM_bandChunk_error m.frequency_band_to_sound_peaks.toList
      hentries_bounds hentries_count ⟨(b, l), get_mem_toList hget, hns⟩
    simp only [DecodedMessage.encode_to_binary, hrid, encodeContents, herr,
      except_bind_error, except_bind_ok]
  · intro hs
    obtain ⟨cs, hcs, hcslen⟩ := mapM_bandChunk_ok m.frequency_band_to_sound_peaks.toList
      hentries_bounds hentries_count
      (fun e he => hs e.1 e.2 (toList_mem (by cases e; exact he)))
    rw [toList_sum] at hcslen
    have hlistlen := toList_length_le m.frequency_band_to_sound_peaks
    exact ⟨_, encode_ok m hrid hcs (by omega)⟩

/-- C7 witness: a band list whose pass numbers decrease (5 then 3) makes
the encoder raise the sorting error. -/
theorem spec_C7_witness :
    (⟨16000, 0, ⟨none, some [⟨5, 0, 0, 16000⟩, ⟨3, 0, 0, 16000⟩], none, none, none⟩⟩ :
        DecodedMessage).encode_to_binary =
      .error "frequency_peak.fft_pass_number < fft_pass_number" :=
  (spec_C7 ⟨16000, 0, ⟨none, some [⟨5, 0, 0, 16000⟩, ⟨3, 0, 0, 16000⟩], none, none, none⟩⟩
      (by decide) (by decide) (by decide)).1
    ⟨.band_250_520, [⟨5, 0, 0, 16000⟩, ⟨3, 0, 0, 16000⟩], rfl, by decide⟩

set_option maxRecDepth 10000 in
/-- C7, counterexample to the unamended claim: the sorted singleton band
`[⟨2 ^ 32, 0, 0⟩]` has a non-negative pass number and 16-bit magnitude
and bin, yet the encoder raises `int too big to convert` (from
`int.to_bytes(4)` in the 0xFF escape), not the sorting error the claim
says is the only failure. -/
theorem spec_C7_cex :
    sortedPeaks [⟨(2 : Int) ^ 32, 0, 0, 16000⟩] ∧
    (0 : Int) ≤ (2 : Int) ^ 32 ∧
    (⟨16000, 0, ⟨none, some [⟨(2 : Int) ^ 32, 0, 0, 16000⟩], none, none, none⟩⟩ :
        DecodedMessage).encode_to_binary = .error "int too big to convert" := by
  refine ⟨by decide, by decide, by decide⟩

set_option maxHeartbeats 2000000 in
/-- C8: a peak stored by `do_peak_recognition` always has interpolated
frequency `frequency_hz = correctedBin * (16000 / 2 / 1024 / 64)` within
`[250, 5500]`, its stored bin is the truncation of the interpolated bin,
and its band is selected by the half-open intervals `[250,520) → 0`,
`[520,1450) → 1`, `[1450,3500) → 2`, `[3500,5500] → 3`; a candidate whose
frequency falls outside `[250, 5500]` is discarded, never stored. -/
theorem spec_C8 (v : PassView) (fftN : Int) (k : Nat) :
    (∀ b pk, processBin v fftN k = .ok (some (b, pk)) →
      250 ≤ frequencyHz (correctedBinQ v k) ∧
      frequencyHz (correctedBinQ v k) ≤ 5500 ∧
      pk.corrected_peak_frequency_bin = ratTrunc (correctedBinQ v k) ∧
      b = (if frequencyHz (correctedBinQ v k) < 520 then .band_250_520
        else if frequencyHz (correctedBinQ v k) < 1450 then .band_520_1450
        else if frequencyHz (correctedBinQ v k) < 3500 then .band_1450_3500
        else .band_3500_5500)) ∧
    ((frequencyHz (correctedBinQ v k) < 250 ∨ 5500 < frequencyHz (correctedBinQ v k)) →
      ∀ r, processBin v fftN k = .ok r → r = none) := by
  unfold frequencyHz correctedBinQ peakVariation1
  constructor
  · intro b pk h
    simp only [processBin] at h
    split_ifs at h with h1 h2 h3 h4 h5 h6 h7 h8 h9
    all_goals first
      | exact Except.noConfusion h
      | exact Option.noConfusion (Except.ok.inj h)
      | (obtain ⟨hb, hpk⟩ := Prod.mk.injEq .. ▸ Option.some.inj (Except.ok.inj h)
         subst hb
         subst hpk
         first
           | exact ⟨le_of_not_lt h5, by linarith, rfl, by rw [if_pos h6]⟩
           | exact ⟨le_of_not_lt h5, by linarith, rfl, by rw [if_neg h6, if_pos h7]⟩
           | exact ⟨le_of_not_lt h5, by linarith, rfl,
               by rw [if_neg h6, if_neg h7, if_pos h8]⟩
           | exact ⟨le_of_not_lt h5, h9, rfl,
               by rw [if_neg h6, if_neg h7, if_neg h8]⟩)
  · intro hout r h
    simp only [processBin] at h
    split_ifs at h with h1 h2 h3 h4 h5 h6 h7 h8 h9
    all_goals first
      | exact (Except.ok.inj h).symm
      | exact Except.noConfusion h
      | (rcases hout with hlt | hgt
         · exact absurd hlt h5
         · exact absurd hgt (by linarith))

set_option maxRecDepth 10000 in
/-- C8 witness: the isolated peak at bin 64 of `vOne` interpolates to
frequency 500 Hz, inside `[250, 520)`, and is stored in band 0. -/
theorem spec_C8_witness :
    250 ≤ frequencyHz (correctedBinQ vOne 64) ∧
    frequencyHz (correctedBinQ vOne 64) ≤ 5500 ∧
    (⟨0, 6144, 4096, 16000⟩ : FrequencyPeak).corrected_peak_frequency_bin =
      ratTrunc (correctedBinQ vOne 64) ∧
    FrequencyBand.band_250_520 =
      (if frequencyHz (correctedBinQ vOne 64) < 520 then .band_250_520
        else if frequencyHz (correctedBinQ vOne 64) < 1450 then .band_520_1450
        else if frequencyHz (correctedBinQ vOne 64) < 3500 then .band_1450_3500
        else .band_3500_5500) :=
  (spec_C8 vOne 0 64).1 .band_250_520 ⟨0, 6144, 4096, 16000⟩ (by decide)

/-- C9: feeding exactly 2048 samples to a fresh generator and asking for a
signature returns (whatever the spectral data) exactly one signature, with
`number_samples = 2048` and no peaks in any band; its encoding is exactly
56 bytes (48-byte header plus 8-byte preamble, no TLV entries). -/
theorem spec_C9 (om : Nat → PassView) :
    (runOps om [.feed 2048, .getNext] initGen).2 = [⟨16000, 2048, BandMap.empty⟩] ∧
    ∃ bs, (⟨16000, 2048, BandMap.empty⟩ : DecodedMessage).encode_to_binary = .ok bs ∧
      bs.length = 56 := by
  refine ⟨runOps_zero om, ?_⟩
  refine ⟨_, @encode_ok ⟨16000, 2048, BandMap.empty⟩ (3 <<< 27) [] (by decide) (by decide)
    (by norm_num), ?_⟩
  rw [encBytes_length]
  rfl

/-- C10: a band present in the dictionary with an empty peak list still
produces an 8-byte TLV entry (its tag and a zero length), an absent band
produces none, and decoding the encoding reproduces the dictionary
exactly, so present-but-empty bands survive the round trip while absent
bands stay absent. -/
theorem spec_C10 (m : DecodedMessage) (hm : validMessage m) (b : FrequencyBand) :
    (bandChunk b [] = .ok (toLE 4 (bandTag b) ++ toLE 4 0) ∧
      (toLE 4 (bandTag b) ++ toLE 4 0).length = 8) ∧
    ∃ bs, m.encode_to_binary = .ok bs ∧
      ∀ m2, DecodedMessage.decode_from_binary bs = .ok m2 →
        (m.frequency_band_to_sound_peaks.get b = some [] →
          m2.frequency_band_to_sound_peaks.get b = some []) ∧
        (m.frequency_band_to_sound_peaks.get b = none →
          m2.frequency_band_to_sound_peaks.get b = none) := by
  constructor
  · constructor
    · cases b <;> decide
    · cases b <;> decide
  · obtain ⟨bs, h1, _, h2⟩ := roundtrip_main m hm
    refine ⟨bs, h1, ?_⟩
    intro m2 hm2
    rw [h2] at hm2
    cases Except.ok.inj hm2
    exact ⟨fun h => h, fun h => h⟩

set_option maxRecDepth 10000 in
theorem spec_C10_witness :
    (bandChunk .band_520_1450 [] =
        .ok (toLE 4 (bandTag .band_520_1450) ++ toLE 4 0) ∧
      (toLE 4 (bandTag .band_520_1450) ++ toLE 4 0).length = 8) ∧
    ∃ bs, (⟨16000, 0, ⟨none, none, some [], none, none⟩⟩ :
        DecodedMessage).encode_to_binary = .ok bs ∧
      ∀ m2, DecodedMessage.decode_from_binary bs = .ok m2 →
        ((⟨16000, 0, ⟨none, none, some [], none, none⟩⟩ :
            DecodedMessage).frequency_band_to_sound_peaks.get .band_520_1450 = some [] →
          m2.frequency_band_to_sound_peaks.get .band_520_1450 = some []) ∧
        ((⟨16000, 0, ⟨none, none, some [], none, none⟩⟩ :
            DecodedMessage).frequency_band_to_sound_peaks.get .band_520_1450 = none →
          m2.frequency_band_to_sound_peaks.get .band_520_1450 = none) :=
  spec_C10 ⟨16000, 0, ⟨none, none, some [], none, none⟩⟩ (by decide) .band_520_1450

end ShazamAPI
